import Mathlib

/-!
Verification of myshell: tokenizer, history ring buffer, builtin dispatcher,
process launcher and command loop

A shallow embedding of `src/myshell.c` and the properties of it that the
specification states.

Conventions of the embedding

* A C string is the list of its characters before the terminating NUL
  (`CString`).  A `char *` that may be `NULL` is an `Option CString`.
* `int` variables are `Int`.  Where C leaves the behaviour undefined (signed
  overflow of `history_count` and `cmd_count`, an index outside `history`,
  `strcmp` or `execvp` on `NULL`) the embedded function returns `none`; every
  other path returns `some`.
* `argv` is memory: a function from slot index to the pointer stored there.
* Calls into libc and the operating system (`strtok_r`, `fgets`, `getenv`,
  `chdir`, `puts`, `printf`, `perror`) are modelled by their documented
  behaviour; what the operating system decides (`getenv`, `chdir`, `getcwd`,
  `fork`, `execvp`, `waitpid`) is a parameter.
* Standard input is a finite list of characters; the interpreter reads it
  with `fgets`, and a program executed by a child may take characters of it
  too (`Procs.reads`).
-/

namespace MyShell

/-- Contents of a NUL-terminated C string: the characters before the NUL. -/
abbrev CString := List Char

/-- Memory of an `char *argv[]` array: slot index to stored pointer. -/
abbrev Argv := Nat → Option CString

/-- Constant `MAX_LINE` of the source. -/
def MAX_LINE : Int := 1024

/-- Constant `MAX_ARGS` of the source. -/
def MAX_ARGS : Int := 64

/-- Constant `HISTORY_SIZE` of the source. -/
def HISTORY_SIZE : Int := 10

/-- Largest value of a C `int` (32 bit). -/
def INT_MAX : Int := 2147483647

/-! ## Tokenizer (`parse_args`) -/

/-- Membership in the delimiter string `" \t"` handed to `strtok_r`. -/
def isDelim (c : Char) : Bool := c == ' ' || c == '\t'

/-- One call `strtok_r(s, " \t", &save)` where `s` is the text the call starts
from (the line on the first call, the text at `save` afterwards): skip the
leading delimiters; at the end of the string return `NULL`; otherwise the token
is the run of non-delimiters that follows, the delimiter ending it (if any) is
overwritten by NUL and `save` points behind it.  Result: the token (or `NULL`)
and the text at the new `save`. -/
def strtok_r (s : CString) : Option CString × CString :=
  let s1 := s.dropWhile isDelim
  match s1 with
  | [] => (none, [])
  | _ :: _ =>
    let tok := s1.takeWhile (fun c => !isDelim c)
    let rest := s1.dropWhile (fun c => !isDelim c)
    (some tok, rest.tail)

/-- Assignment `argv[i] = p`. -/
def store (argv : Argv) (i : Int) (p : Option CString) : Argv :=
  fun j => if (j : Int) = i then p else argv j

/-- The `while (tok != NULL && argc < max_args - 1)` loop of `parse_args`;
the first argument bounds the number of condition checks (`none` when it is
used up before the loop exits). -/
def parse_args_loop (max_args : Int) :
    Nat → Option CString → CString → Int → Argv → Option (Int × Argv)
  | 0, _, _, _, _ => none
  | fuel + 1, tok, save, argc, argv =>
    match tok with
    | none => some (argc, argv)
    | some t =>
      if argc < max_args - 1 then
        let r := strtok_r save
        parse_args_loop max_args fuel r.1 r.2 (argc + 1) (store argv argc (some t))
      else some (argc, argv)

/-- Function `parse_args(line, argv, max_args)`: returns `argc` and the
contents of `argv` afterwards.  Every `strtok_r` call that yields a token
consumes at least one character, so `line.length + 1` condition checks are
always enough (`parse_args_spec`). -/
def parse_args (line : CString) (argv : Argv) (max_args : Int) : Option (Int × Argv) :=
  let r := strtok_r line
  match parse_args_loop max_args (line.length + 1) r.1 r.2 0 argv with
  | none => none
  | some (argc, argv1) => some (argc, store argv1 argc none)

/-- Specification side: the whitespace-delimited fields of a line, that is the
maximal non-empty runs of characters other than space and tab, left to right. -/
def fields (line : CString) : List CString :=
  (line.splitOnP isDelim).filter (fun t => !t.isEmpty)

/-- The pair `(argc, argv)` is the argument vector with tokens `ts`:
`argc` tokens in slots `0 .. argc-1` and the `NULL` sentinel in slot `argc`. -/
def IsArgv (ts : List CString) (argc : Int) (argv : Argv) : Prop :=
  argc = ts.length ∧ (∀ i, i < ts.length → argv i = ts[i]?) ∧ argv ts.length = none

/-! ## History buffer (`history_add`, `history_print`) -/

/-- The static variables `history`, `history_count` and `history_next`. -/
structure History where
  /-- The slots `history[0 .. HISTORY_SIZE-1]`, each a NUL-terminated string. -/
  history : List CString
  /-- Total commands typed. -/
  history_count : Int
  /-- Index to write next command. -/
  history_next : Int
deriving DecidableEq

/-- State at program start: static storage is zero-initialised, so every slot
is the empty string and both counters are 0. -/
def history_init : History :=
  { history := List.replicate HISTORY_SIZE.toNat [], history_count := 0, history_next := 0 }

/-- Function `history_add(line)`.  `snprintf(dst, MAX_LINE, "%s", line)` stores
the first `MAX_LINE - 1` characters of `line`.  Writing outside `history` and
incrementing `history_count` at `INT_MAX` are undefined in C: `none`. -/
def history_add (h : History) (line : Option CString) : Option History :=
  match line with
  | none => some h
  | some [] => some h
  | some (c :: cs) =>
    if 0 ≤ h.history_next ∧ h.history_next < HISTORY_SIZE ∧ h.history_count < INT_MAX then
      let buf := h.history.set h.history_next.toNat ((c :: cs).take (MAX_LINE - 1).toNat)
      let next := h.history_next + 1
      let next := if next ≥ HISTORY_SIZE then 0 else next
      some { history := buf, history_count := h.history_count + 1, history_next := next }
    else none

/-- A sequence of `history_add` calls, in order. -/
def history_add_all (h : History) : List (Option CString) → Option History
  | [] => some h
  | l :: ls =>
    match history_add h l with
    | none => none
    | some h1 => history_add_all h1 ls

/-- What the program writes to its standard streams, one item per libc call. -/
inductive Output where
  /-- Call `puts(s)`: the string and a newline on stdout. -/
  | puts (s : CString)
  /-- Call `printf("%d  %s\n", n, s)`. -/
  | printf_d_s (n : Int) (s : CString)
  /-- Call `perror(s)` with the given `errno`: a diagnostic on stderr. -/
  | perror (s : CString) (errno : Int)
  /-- Call `printf("[#%d %s] myshell> ", n, cwd)` followed by `fflush(stdout)`. -/
  | printf_prompt (n : Int) (cwd : CString)
deriving DecidableEq

/-- Read of `history[idx]`; an index outside the array is undefined: `none`. -/
def history_slot (h : History) (idx : Int) : Option CString :=
  if 0 ≤ idx ∧ idx < HISTORY_SIZE then h.history[idx.toNat]? else none

/-- The `for (int i = 0; i < entries; i++)` loop of `history_print`, from the
given value of `i`; the first argument bounds the number of condition checks. -/
def history_print_loop (h : History) (entries start_index start_number : Int) :
    Nat → Int → Option (List Output)
  | 0, _ => none
  | fuel + 1, i =>
    if i < entries then
      let idx := start_index + i
      let idx := if idx ≥ HISTORY_SIZE then Int.tmod idx HISTORY_SIZE else idx
      match history_slot h idx with
      | none => none
      | some s =>
        match history_print_loop h entries start_index start_number fuel (i + 1) with
        | none => none
        | some out => some (Output.printf_d_s (start_number + i) s :: out)
    else some []

/-- Function `history_print()`: the output it produces.  `entries` is at most
`HISTORY_SIZE`, so `HISTORY_SIZE + 1` condition checks end the loop. -/
def history_print (h : History) : Option (List Output) :=
  if h.history_count = 0 then some [Output.puts "No history.".toList]
  else
    let entries := if h.history_count > HISTORY_SIZE then HISTORY_SIZE else h.history_count
    let start_index := if h.history_count < HISTORY_SIZE then 0 else h.history_next
    let start_number :=
      if h.history_count < HISTORY_SIZE then 1 else h.history_count - entries + 1
    history_print_loop h entries start_index start_number (HISTORY_SIZE.toNat + 1) 0

/-! ## Builtin dispatcher (`handle_builtin`) -/

/-- The operating system as the dispatcher sees it.  `σ` is the state of the
process in the operating system (its working directory). -/
structure Sys (σ : Type) where
  /-- Call `getenv(name)`: the value, or `NULL`. -/
  getenv : CString → Option CString
  /-- Call `chdir(path)`: the new process state on success (return value 0), or
  the `errno` of the failure, in which case the working directory is kept. -/
  chdir : σ → CString → Except Int σ

/-- Everything `handle_builtin` can read or change. -/
structure Shell (σ : Type) where
  /-- The history variables. -/
  hist : History
  /-- The process state in the operating system. -/
  os : σ
  /-- Output written so far. -/
  out : List Output

/-- Function `handle_builtin(argc, argv)`: the return value (-1 exit shell,
1 handled builtin, 0 not a builtin) and the state afterwards.  `strcmp` on a
`NULL` pointer is undefined: `none`. -/
def handle_builtin {σ : Type} (sys : Sys σ) (argc : Int) (argv : Argv) (w : Shell σ) :
    Option (Int × Shell σ) :=
  if argc = 0 then some (1, w)
  else
    match argv 0 with
    | none => none
    | some a0 =>
      if a0 = "exit".toList then some (-1, w)
      else if a0 = "cd".toList then
        let target := if argc ≥ 2 then argv 1 else sys.getenv "HOME".toList
        let target := match target with
          | none => ".".toList
          | some t => t
        match sys.chdir w.os target with
        | Except.ok os1 => some (1, { w with os := os1 })
        | Except.error e => some (1, { w with out := w.out ++ [Output.perror "cd".toList e] })
      else if a0 = "help".toList then
        some (1, { w with out := w.out ++
          [Output.puts "Builtins:".toList, Output.puts "  help".toList,
           Output.puts "  cd [dir]".toList, Output.puts "  history".toList,
           Output.puts "  exit".toList] })
      else if a0 = "history".toList then
        match history_print w.hist with
        | none => none
        | some o => some (1, { w with out := w.out ++ o })
      else some (0, w)

/-- Tokens a `strtok_r` result stands for: the token just returned followed by
the fields still to be read behind `save`. -/
def pending (tok : Option CString) (save : CString) : List CString :=
  match tok with
  | none => []
  | some t => t :: fields save

/-- The argument memory after tokens `got` were stored from slot `n` on. -/
def filled (argv : Argv) (n : Nat) (got : List CString) : Argv :=
  fun j => if n ≤ j ∧ j < n + got.length then got[j - n]? else argv j

/-- Slots of `argv` after storing the tokens `ts` from slot 0 on, followed by
the `NULL` sentinel. -/
def argv_after (argv : Argv) (ts : List CString) : Argv :=
  fun j => if j < ts.length then ts[j]? else if j = ts.length then none else argv j


/-- The text a call `history_add(line)` stores: the first `MAX_LINE - 1`
characters of a non-empty line; nothing for `NULL` and for the empty line. -/
def recorded1 (line : Option CString) : Option CString :=
  match line with
  | none => none
  | some [] => none
  | some (c :: cs) => some ((c :: cs).take (MAX_LINE - 1).toNat)

/-- The texts a sequence of `history_add` calls stores, in order. -/
def recorded (lines : List (Option CString)) : List CString :=
  lines.filterMap recorded1

/-- Relation between the history variables and the list `rec` of all texts
recorded so far (oldest first): ten slots; the count is the number of recorded
texts and the cursor is that number modulo ten; the text recorded as number
`k` (counted from 0), if it is among the last ten, is in slot `k mod 10`; the
slots never written are empty. -/
structure HistoryInv (h : History) (rec : List CString) : Prop where
  /-- The array has `HISTORY_SIZE` slots. -/
  size : h.history.length = 10
  /-- The counter `history_count` is the number of recorded texts. -/
  count : h.history_count = (rec.length : Int)
  /-- The cursor `history_next` is the count modulo `HISTORY_SIZE`. -/
  next : h.history_next = ((rec.length % 10 : Nat) : Int)
  /-- The last ten recorded texts are in their slots. -/
  recent : ∀ k, k < rec.length → rec.length ≤ k + 10 → h.history[k % 10]? = rec[k]?
  /-- Slots never written hold the empty string. -/
  unused : ∀ j, rec.length ≤ j → j < 10 → h.history[j]? = some []

/-- Specification side: the entries rendered after the texts `rec` were
recorded, with capacity `C = HISTORY_SIZE`: `min(N, C)` entries, the `i`-th
with number `max(1, N-C+1) + i` and the text recorded as number
`max(0, N-C) + i` (counted from 0). -/
def rendered (rec : List CString) : List Output :=
  (List.range (min rec.length HISTORY_SIZE.toNat)).map fun (i : Nat) =>
    Output.printf_d_s (max 1 ((rec.length : Int) - HISTORY_SIZE + 1) + (i : Int))
      (rec.getD (rec.length - HISTORY_SIZE.toNat + i) [])

/-- Specification side: the directory `cd` changes to: the second token when
the vector has at least two tokens, otherwise the value of `HOME` when it is
set, otherwise `"."`. -/
def cd_target (home : Option CString) (ts : List CString) : CString :=
  match ts with
  | _ :: t :: _ => t
  | _ =>
    match home with
    | some v => v
    | none => ".".toList

/-- An operating system for the examples: the process state is the working
directory, `HOME` is `/home/u`, and `/home/u` is the only directory there is
(`chdir` to anything else fails with `ENOENT = 2`). -/
def sys_home_u : Sys CString where
  getenv := fun name => if name = "HOME".toList then some "/home/u".toList else none
  chdir := fun _ path => if path = "/home/u".toList then Except.ok path else Except.error 2

/-! ## Command loop (`trim_newline`, `print_prompt`, `run_external`, `main`) -/

/-- Constant `CWD_SIZE` of the source. -/
def CWD_SIZE : Int := 256

/-- Function `trim_newline(s)`: the string afterwards. -/
def trim_newline (s : CString) : CString :=
  let len := s.length
  if len > 0 ∧ s[len - 1]? = some '\n' then s.take (len - 1) else s

/-- The characters one `fgets` call takes from the stream: at most `n`, ending
behind the first newline.  Result: the characters taken and the rest of the
stream. -/
def read_chars : Nat → List Char → List Char × List Char
  | 0, s => ([], s)
  | _ + 1, [] => ([], [])
  | n + 1, c :: s =>
    if c = '\n' then ([c], s)
    else ((c :: (read_chars n s).1), (read_chars n s).2)

/-- Call `fgets(line, size, stdin)` on a stream with the given characters
left: `NULL` at end of input; otherwise at most `size - 1` characters are
taken, and the string in `line` is what was taken up to a NUL character, if
one was read.  Result: the string and the rest of the stream. -/
def fgets (size : Int) (stdin : List Char) : Option (CString × List Char) :=
  match stdin with
  | [] => none
  | _ :: _ =>
    some (((read_chars (size - 1).toNat stdin).1).takeWhile (fun c => c ≠ '\x00'),
      (read_chars (size - 1).toNat stdin).2)

/-- How a child process ends. -/
inductive ChildEnd where
  /-- The child terminates with this exit status. -/
  | exited (status : Int)
  /-- The child never terminates. -/
  | never
deriving DecidableEq

/-- The process-related part of the operating system, as `print_prompt` and
`run_external` see it. -/
structure Procs (σ : Type) where
  /-- Call `getcwd(buf, size)`: the path, or `NULL`. -/
  getcwd : σ → Int → Option CString
  /-- Call `fork()`: `none` when the child is created, the `errno` otherwise. -/
  fork : σ → Option Int
  /-- Call `execvp(file, args)` in the child: the `errno` when the call returns
  (the program cannot be executed), otherwise how the program ends. -/
  execvp : σ → CString → List CString → Except Int ChildEnd
  /-- Call `waitpid(pid, &status, 0)`: the `errno` when the call fails, `none`
  when it waits for the child to terminate. -/
  waitpid : σ → Option Int
  /-- What the program executed by `execvp(file, args)` takes from the standard
  input, which the child inherits from the interpreter: of the given unread
  characters the first `k` are out of its reach (the interpreter has them in
  its buffer already) and the program consumes the `c` characters that follow;
  the result is `(k, c)`. -/
  reads : σ → CString → List CString → List Char → Nat × Nat

/-- Process-related system calls made by the interpreter and by its children. -/
inductive Call where
  /-- Call `fork()`, with the `errno` if it failed. -/
  | fork (errno : Option Int)
  /-- Call `execvp(file, args)` in the child, with the `errno` if it returned. -/
  | execvp (file : CString) (args : List CString) (errno : Option Int)
  /-- Call `_exit(status)` in the child. -/
  | child_exit (status : Int)
  /-- Call `waitpid` that failed with this `errno`. -/
  | waitpid_failed (errno : Int)
  /-- Call `waitpid` that returned the exit status of the child. -/
  | waitpid_ok (status : Int)
deriving DecidableEq

/-- The unread input that is left for the interpreter when a program has
taken its share: the first `k` characters and what follows the `c` consumed
ones. -/
def input_left (stdin : List Char) (kc : Nat × Nat) : List Char :=
  stdin.take kc.1 ++ stdin.drop (kc.1 + kc.2)

/-- The interpreter process: the history variables, the operating system and
the output (`sh`), the unread input, the locals `cmd_count` and `argv` of
`main`, and the process-related system calls made so far. -/
structure Proc (σ : Type) where
  /-- History, process state in the operating system, output. -/
  sh : Shell σ
  /-- Characters of standard input not yet read. -/
  stdin : List Char
  /-- Local `cmd_count` of `main`. -/
  cmd_count : Int
  /-- Local `argv` of `main`. -/
  argv : Argv
  /-- Process-related system calls so far. -/
  calls : List Call

/-- How a call of `run_external` ends for the interpreter. -/
inductive Ran (σ : Type) where
  /-- The call returns. -/
  | returned (p : Proc σ)
  /-- The call waits for ever for a child that never terminates. -/
  | blocked (p : Proc σ)

/-- How one iteration of the loop of `main` ends. -/
inductive Step (σ : Type) where
  /-- The `break`: the loop ends and `main` returns 0. -/
  | stop (p : Proc σ)
  /-- The next iteration follows. -/
  | next (p : Proc σ)
  /-- The iteration waits for ever in `run_external`. -/
  | blocked (p : Proc σ)

/-- How a run of `main` ends. -/
inductive Outcome (σ : Type) where
  /-- Function `main` returns this exit code. -/
  | returned (code : Int) (p : Proc σ)
  /-- The interpreter waits for ever for a child. -/
  | blocked (p : Proc σ)
  /-- The run has undefined behaviour. -/
  | undefined
  /-- The bound on the number of iterations is used up. -/
  | unfinished

/-- Function `print_prompt(cmd_count)`. -/
def print_prompt {σ : Type} (px : Procs σ) (cmd_count : Int) (w : Shell σ) : Shell σ :=
  let cwd := match px.getcwd w.os CWD_SIZE with
    | none => "?".toList
    | some c => c
  { w with out := w.out ++ [Output.printf_prompt cmd_count cwd] }

/-- The `NULL`-terminated vector that starts at slot `i` of `argv`, as `execvp`
reads it; the first argument bounds the number of slots read (`none` when no
`NULL` is found among them). -/
def argv_list (argv : Argv) : Nat → Nat → Option (List CString)
  | 0, _ => none
  | fuel + 1, i =>
    match argv i with
    | none => some []
    | some t =>
      match argv_list argv fuel (i + 1) with
      | none => none
      | some ts => some (t :: ts)

/-- Function `run_external(argv)`.  The child's part (`execvp`, and `perror`
and `_exit(127)` when `execvp` returns) is placed between the `fork` and the
`waitpid` of the parent; the child writes to the streams it inherits, and a
program it executes reads from the standard input it inherits, so that less
input may be left for the interpreter (`Procs.reads`).  The array of `main`
has `MAX_ARGS` slots; `execvp` on a `NULL` file name or on a vector without
`NULL` in these slots is undefined: `none`. -/
def run_external {σ : Type} (px : Procs σ) (argv : Argv) (p : Proc σ) : Option (Ran σ) :=
  match px.fork p.sh.os with
  | some e =>
    some (Ran.returned { p with
      sh := { p.sh with out := p.sh.out ++ [Output.perror "fork".toList e] },
      calls := p.calls ++ [Call.fork (some e)] })
  | none =>
    match argv 0, argv_list argv MAX_ARGS.toNat 0 with
    | some file, some args =>
      match px.execvp p.sh.os file args with
      | Except.error e =>
        let p1 : Proc σ := { p with
          sh := { p.sh with out := p.sh.out ++ [Output.perror "execvp".toList e] },
          calls := p.calls ++ [Call.fork none, Call.execvp file args (some e),
            Call.child_exit 127] }
        match px.waitpid p.sh.os with
        | some e2 =>
          some (Ran.returned { p1 with
            sh := { p1.sh with out := p1.sh.out ++ [Output.perror "waitpid".toList e2] },
            calls := p1.calls ++ [Call.waitpid_failed e2] })
        | none => some (Ran.returned { p1 with calls := p1.calls ++ [Call.waitpid_ok 127] })
      | Except.ok ending =>
        let p1 : Proc σ := { p with
          stdin := input_left p.stdin (px.reads p.sh.os file args p.stdin),
          calls := p.calls ++ [Call.fork none, Call.execvp file args none] }
        match px.waitpid p.sh.os with
        | some e2 =>
          some (Ran.returned { p1 with
            sh := { p1.sh with out := p1.sh.out ++ [Output.perror "waitpid".toList e2] },
            calls := p1.calls ++ [Call.waitpid_failed e2] })
        | none =>
          match ending with
          | ChildEnd.exited status =>
            some (Ran.returned { p1 with calls := p1.calls ++ [Call.waitpid_ok status] })
          | ChildEnd.never => some (Ran.blocked p1)
    | _, _ => none

/-- Lines 206 to 213 of `main`: dispatch to `handle_builtin`, then `break`,
`continue`, or `run_external` for a non-empty vector. -/
def main_dispatch {σ : Type} (sys : Sys σ) (px : Procs σ) (argc : Int) (p : Proc σ) :
    Option (Step σ) :=
  match handle_builtin sys argc p.argv p.sh with
  | none => none
  | some (b, sh2) =>
    if b = -1 then some (Step.stop { p with sh := sh2 })
    else if b = 1 then some (Step.next { p with sh := sh2 })
    else if argc > 0 then
      match run_external px p.argv { p with sh := sh2 } with
      | none => none
      | some (Ran.returned p2) => some (Step.next p2)
      | some (Ran.blocked p2) => some (Step.blocked p2)
    else some (Step.next { p with sh := sh2 })

/-- One iteration of the `while (1)` loop of `main`.  Incrementing `cmd_count`
at `INT_MAX` is undefined: `none`.  `snprintf(line2, sizeof(line2), "%s", line)`
copies the first `MAX_LINE - 1` characters of `line`. -/
def main_iteration {σ : Type} (sys : Sys σ) (px : Procs σ) (p : Proc σ) : Option (Step σ) :=
  if p.cmd_count < INT_MAX then
    let cmd_count := p.cmd_count + 1
    let sh1 := print_prompt px cmd_count p.sh
    match fgets MAX_LINE p.stdin with
    | none =>
      some (Step.stop { p with
        sh := { sh1 with out := sh1.out ++ [Output.puts "\nexit".toList] },
        cmd_count := cmd_count })
    | some (raw, rest) =>
      let line := trim_newline raw
      let line2 := line.take (MAX_LINE - 1).toNat
      match history_add sh1.hist (some line2) with
      | none => none
      | some hist1 =>
        match parse_args line p.argv MAX_ARGS with
        | none => none
        | some (argc, argv1) =>
          main_dispatch sys px argc
            { sh := { sh1 with hist := hist1 }, stdin := rest, cmd_count := cmd_count,
              argv := argv1, calls := p.calls }
  else none

/-- The loop of `main`; the first argument bounds the number of iterations. -/
def main_loop {σ : Type} (sys : Sys σ) (px : Procs σ) : Nat → Proc σ → Outcome σ
  | 0, _ => Outcome.unfinished
  | fuel + 1, p =>
    match main_iteration sys px p with
    | none => Outcome.undefined
    | some (Step.stop p1) => Outcome.returned 0 p1
    | some (Step.next p1) => main_loop sys px fuel p1
    | some (Step.blocked p1) => Outcome.blocked p1

/-- State of the interpreter when `main` starts: empty history, no output,
`cmd_count = 0`, and whatever the uninitialised `argv` holds. -/
def main_init {σ : Type} (os : σ) (stdin : List Char) (argv : Argv) : Proc σ :=
  { sh := { hist := history_init, os := os, out := [] }, stdin := stdin, cmd_count := 0,
    argv := argv, calls := [] }

/-- Function `main()` on the given input.  Every iteration that does not end
the loop reads at least one character, so one iteration more than there are
characters is enough (`main_loop_finishes`). -/
def main {σ : Type} (sys : Sys σ) (px : Procs σ) (os : σ) (stdin : List Char) (argv : Argv) :
    Outcome σ :=
  main_loop sys px (stdin.length + 1) (main_init os stdin argv)

/-- Processes for the examples, on the operating system `sys_home_u`: the
working directory is always known, children can be created, the only program
that can be executed is `sleep`, which never terminates and reads nothing
(every other `execvp` fails with `ENOENT = 2`), and `waitpid` does not fail. -/
def procs_home_u : Procs CString where
  getcwd := fun os _ => some os
  fork := fun _ => none
  execvp := fun _ file _ =>
    if file = "sleep".toList then Except.ok ChildEnd.never else Except.error 2
  waitpid := fun _ => none
  reads := fun _ _ _ _ => (0, 0)

/-- Specification side: the line made of the tokens `ts` with the separator
strings `seps` around and between them: `seps[0] t1 seps[1] t2 ... tn seps[n]`. -/
def join_tokens : List CString → List CString → CString
  | sep :: seps, t :: ts => sep ++ t ++ join_tokens seps ts
  | sep :: _, [] => sep
  | [], _ => []

/-- The state of the interpreter at the end of an iteration. -/
def Step.proc {σ : Type} : Step σ → Proc σ
  | Step.stop p => p
  | Step.next p => p
  | Step.blocked p => p

/-- The state of the interpreter at the end of a `run_external` call. -/
def Ran.proc {σ : Type} : Ran σ → Proc σ
  | Ran.returned p => p
  | Ran.blocked p => p

/-- The state in which `main_dispatch` is entered when the iteration read the
line `line` (already trimmed), leaving `rest` unread: the prompt is printed,
the line is recorded in `hist1`, and its tokens are in `argv`. -/
def dispatch_state {σ : Type} (px : Procs σ) (p : Proc σ) (hist1 : History)
    (line : CString) (rest : List Char) : Proc σ :=
  { sh := { hist := hist1, os := p.sh.os,
            out := p.sh.out ++ [Output.printf_prompt (p.cmd_count + 1)
              (match px.getcwd p.sh.os CWD_SIZE with
               | none => "?".toList
               | some c => c)] },
    stdin := rest, cmd_count := p.cmd_count + 1,
    argv := argv_after p.argv ((fields line).take (MAX_ARGS - 1).toNat),
    calls := p.calls }

/-- Number of `fork` calls in a list of system calls: every `run_external`
call makes exactly one. -/
def forks (calls : List Call) : Nat :=
  calls.countP fun c =>
    match c with
    | Call.fork _ => true
    | _ => false

/-- The step that follows a `run_external` call: the next iteration when the
call returns. -/
def Ran.step {σ : Type} : Ran σ → Step σ
  | Ran.returned p => Step.next p
  | Ran.blocked p => Step.blocked p

/-- States of the interpreter at the start of an iteration, in the run of
`main` on the given operating system, input and initial `argv`. -/
inductive Reachable {σ : Type} (sys : Sys σ) (px : Procs σ) (os : σ) (stdin : List Char)
    (argv : Argv) : Proc σ → Prop where
  /-- The state in which `main` enters the loop. -/
  | init : Reachable sys px os stdin argv (main_init os stdin argv)
  /-- The state in which an iteration hands over to the next one. -/
  | next (p q : Proc σ) : Reachable sys px os stdin argv p →
      main_iteration sys px p = some (Step.next q) → Reachable sys px os stdin argv q

theorem fields_nil : fields [] = [] := by
  simp [fields]

theorem fields_cons_delim (c : Char) (s : CString) (hc : isDelim c = true) :
    fields (c :: s) = fields s := by
  simp [fields, List.splitOnP_cons, hc]

theorem fields_dropWhile (s : CString) : fields (s.dropWhile isDelim) = fields s := by
  induction s with
  | nil => rfl
  | cons c s ih =>
    by_cases hc : isDelim c = true
    · rw [List.dropWhile_cons_of_pos hc, ih, fields_cons_delim c s hc]
    · rw [List.dropWhile_cons_of_neg hc]

/-- A non-empty run of non-delimiters, followed by nothing or by a delimiter,
is the first field; the other fields are those of the text behind that
delimiter. -/
theorem fields_run (tok rest : CString) (hne : tok ≠ [])
    (htok : ∀ x ∈ tok, ¬ isDelim x = true)
    (hrest : ∀ d ∈ rest.head?, isDelim d = true) :
    fields (tok ++ rest) = tok :: fields rest.tail := by
  cases rest with
  | nil =>
    have h1 : List.splitOnP isDelim tok = [tok] := List.splitOnP_eq_single isDelim tok htok
    simp [fields, h1, hne]
  | cons d rest1 =>
    have hd : isDelim d = true := hrest d (by simp)
    have h1 := List.splitOnP_first isDelim tok htok d hd rest1
    simp [fields, h1, hne]

/-- What one `strtok_r` call returns, in terms of the fields of its input: no
token exactly when there is no field; otherwise the first field, leaving a
strictly shorter text whose fields are the remaining ones. -/
theorem strtok_r_spec (s : CString) :
    ((strtok_r s).1 = none ∧ fields s = []) ∨
    (∃ t, (strtok_r s).1 = some t ∧ fields s = t :: fields (strtok_r s).2 ∧
      (strtok_r s).2.length + 1 ≤ s.length) := by
  have hlen : (s.dropWhile isDelim).length ≤ s.length :=
    (List.dropWhile_sublist isDelim).length_le
  have hhead := List.head?_dropWhile_not isDelim s
  have hf := fields_dropWhile s
  unfold strtok_r
  generalize s.dropWhile isDelim = s1 at hlen hhead hf
  cases s1 with
  | nil => left; exact ⟨rfl, by rw [← hf]; exact fields_nil⟩
  | cons c s2 =>
    right
    have hc : isDelim c = false := by simpa using hhead
    refine ⟨_, rfl, ?_, ?_⟩
    · rw [← hf]
      have hsplit := List.takeWhile_append_dropWhile (fun c => !isDelim c) (c :: s2)
      have hrun := fields_run ((c :: s2).takeWhile (fun c => !isDelim c))
        ((c :: s2).dropWhile (fun c => !isDelim c))
        (by simp [List.takeWhile_cons, hc])
        (fun x hx => by simpa using List.mem_takeWhile_imp hx)
        (fun d hd => by
          have h2 := List.head?_dropWhile_not (fun c => !isDelim c) (c :: s2)
          rw [Option.mem_def] at hd
          rw [hd] at h2
          simpa using h2)
      rw [hsplit] at hrun
      exact hrun
    · have h3 : ((c :: s2).dropWhile (fun c => !isDelim c)).length ≤ s2.length := by
        rw [List.dropWhile_cons]
        simp only [hc, Bool.not_false, if_true]
        exact (List.dropWhile_sublist _).length_le
      have h4 : ((c :: s2).dropWhile (fun c => !isDelim c)).tail.length ≤
          ((c :: s2).dropWhile (fun c => !isDelim c)).length := by
        simp
      simp only [List.length_cons] at hlen
      show ((c :: s2).dropWhile (fun c => !isDelim c)).tail.length + 1 ≤ s.length
      omega

theorem pending_strtok_r (s : CString) : pending (strtok_r s).1 (strtok_r s).2 = fields s := by
  rcases strtok_r_spec s with ⟨h1, h2⟩ | ⟨t, h1, h2, _⟩
  · rw [h1, h2]; rfl
  · rw [h1, h2]; rfl

theorem filled_nil (argv : Argv) (n : Nat) : filled argv n [] = argv := by
  funext j
  simp [filled]

theorem filled_cons (argv : Argv) (n : Nat) (t : CString) (got : List CString) :
    filled (store argv n (some t)) (n + 1) got = filled argv n (t :: got) := by
  funext j
  simp only [filled, store, List.length_cons]
  by_cases h1 : j = n
  · subst h1
    simp
  · by_cases h2 : n + 1 ≤ j ∧ j < n + 1 + got.length
    · have h3 : n ≤ j ∧ j < n + (got.length + 1) := by omega
      obtain ⟨k, hk⟩ : ∃ k, j - n = k + 1 := ⟨j - n - 1, by omega⟩
      have hk2 : j - (n + 1) = k := by omega
      rw [if_pos h2, if_pos h3, hk, hk2]
      simp
    · have h3 : ¬ (n ≤ j ∧ j < n + (got.length + 1)) := by omega
      have h4 : ¬ ((j : Int) = (n : Int)) := by omega
      rw [if_neg h2, if_neg h3, if_neg h4]

/-- The loop of `parse_args`, started with `n` tokens stored, stores the
pending tokens that still fit below slot `max_args - 1` and exits, provided the
bound on condition checks exceeds the length of the unread text by two. -/
theorem parse_args_loop_spec (max_args : Int) :
    ∀ (fuel : Nat) (tok : Option CString) (save : CString) (n : Nat) (argv : Argv),
      1 ≤ fuel → (tok = none ∨ save.length + 2 ≤ fuel) →
      parse_args_loop max_args fuel tok save n argv =
        some ((n : Int) + (((pending tok save).take (max_args - 1 - n).toNat).length : Nat),
          filled argv n ((pending tok save).take (max_args - 1 - n).toNat)) := by
  intro fuel
  induction fuel with
  | zero => intro _ _ _ _ h; omega
  | succ fuel ih =>
    intro tok save n argv _ hfuel
    cases tok with
    | none => simp [parse_args_loop, pending, filled_nil]
    | some t =>
      have hfuel2 : save.length + 2 ≤ fuel + 1 := by simpa using hfuel
      by_cases hlt : (n : Int) < max_args - 1
      · obtain ⟨k, hk⟩ : ∃ k : Nat, (max_args - 1 - n).toNat = k + 1 :=
          ⟨(max_args - 1 - n).toNat - 1, by omega⟩
        have hk2 : (max_args - 1 - ((n + 1 : Nat) : Int)).toNat = k := by omega
        have hstep : parse_args_loop max_args (fuel + 1) (some t) save n argv =
            parse_args_loop max_args fuel (strtok_r save).1 (strtok_r save).2
              ((n + 1 : Nat) : Int) (store argv n (some t)) := by
          simp [parse_args_loop, hlt]
        have hcond : (strtok_r save).1 = none ∨ (strtok_r save).2.length + 2 ≤ fuel := by
          rcases strtok_r_spec save with ⟨h1, _⟩ | ⟨_, _, _, h3⟩
          · exact Or.inl h1
          · right; omega
        rw [hstep, ih _ _ _ _ (by omega) hcond, pending_strtok_r, hk2, filled_cons]
        simp only [pending, hk, List.take_succ_cons, List.length_cons]
        congr 2
        push_cast
        ring
      · have hz : (max_args - 1 - n).toNat = 0 := by omega
        simp [parse_args_loop, hlt, hz, filled_nil]

/-- Closed form of `parse_args`: it always returns, the count is the number of
stored tokens, and these are the first fields of the line, as many as fit in
front of the sentinel slot. -/
theorem parse_args_spec (line : CString) (argv : Argv) (max_args : Int) :
    parse_args line argv max_args =
      some (((((fields line).take (max_args - 1).toNat).length : Nat) : Int),
        argv_after argv ((fields line).take (max_args - 1).toNat)) := by
  have hcond : (strtok_r line).1 = none ∨ (strtok_r line).2.length + 2 ≤ line.length + 1 := by
    rcases strtok_r_spec line with ⟨h1, _⟩ | ⟨_, _, _, h3⟩
    · exact Or.inl h1
    · right; omega
  have h := parse_args_loop_spec max_args (line.length + 1) (strtok_r line).1 (strtok_r line).2
    0 argv (by omega) hcond
  rw [pending_strtok_r] at h
  simp only [Nat.cast_zero, sub_zero, zero_add] at h
  unfold parse_args
  simp only [h]
  generalize (fields line).take (max_args - 1).toNat = ts
  congr 2
  funext j
  simp only [store, filled, argv_after]
  by_cases h1 : j < ts.length
  · have h2 : ¬ ((j : Int) = ((ts.length : Nat) : Int)) := by omega
    have h4 : 0 ≤ j ∧ j < 0 + ts.length := by omega
    rw [if_neg h2, if_pos h4, if_pos h1]
    rfl
  · by_cases h3 : j = ts.length
    · have h2 : (j : Int) = ((ts.length : Nat) : Int) := by omega
      rw [if_pos h2, if_neg h1, if_pos h3]
    · have h2 : ¬ ((j : Int) = ((ts.length : Nat) : Int)) := by omega
      have h4 : ¬ (0 ≤ j ∧ j < 0 + ts.length) := by omega
      rw [if_neg h2, if_neg h4, if_neg h1, if_neg h3]

theorem isArgv_argv_after (argv : Argv) (ts : List CString) :
    IsArgv ts ((ts.length : Nat) : Int) (argv_after argv ts) := by
  refine ⟨rfl, ?_, ?_⟩
  · intro i hi
    simp [argv_after, hi]
  · simp [argv_after]

theorem isDelim_iff (c : Char) : isDelim c = true ↔ c = ' ' ∨ c = '\t' := by
  simp [isDelim]

/-- No piece of a split contains a separator. -/
theorem splitOnP_no_sep (l : CString) :
    ∀ t ∈ l.splitOnP isDelim, ∀ c ∈ t, isDelim c = false := by
  induction l with
  | nil => simp
  | cons x xs ih =>
    rw [List.splitOnP_cons]
    by_cases hx : isDelim x = true
    · rw [if_pos hx]
      intro t ht
      rcases List.mem_cons.mp ht with h | h
      · subst h; simp
      · exact ih t h
    · rw [if_neg hx]
      cases hsp : xs.splitOnP isDelim with
      | nil => exact absurd hsp (List.splitOnP_ne_nil isDelim xs)
      | cons hd tl =>
        rw [hsp] at ih
        intro t ht
        simp only [List.modifyHead_cons, List.mem_cons] at ht
        rcases ht with h | h
        · subst h
          intro c hc
          rcases List.mem_cons.mp hc with h1 | h1
          · subst h1; simpa using hx
          · exact ih hd (List.mem_cons_self _ _) c h1
        · exact ih t (List.mem_cons_of_mem _ h)

/-- Every field is non-empty and free of space and tab. -/
theorem fields_mem (line : CString) (t : CString) (ht : t ∈ fields line) :
    t ≠ [] ∧ ∀ c ∈ t, c ≠ ' ' ∧ c ≠ '\t' := by
  unfold fields at ht
  rw [List.mem_filter] at ht
  refine ⟨by simpa using ht.2, ?_⟩
  intro c hc
  have h := splitOnP_no_sep line t ht.1 c hc
  have h2 : ¬ (c = ' ' ∨ c = '\t') := by
    rw [← isDelim_iff]; simp [h]
  exact ⟨fun h3 => h2 (Or.inl h3), fun h3 => h2 (Or.inr h3)⟩

/-- A line has no field exactly when it consists of separators only. -/
theorem fields_eq_nil_iff (line : CString) :
    fields line = [] ↔ ∀ c ∈ line, c = ' ' ∨ c = '\t' := by
  induction line with
  | nil => simp [fields_nil]
  | cons x xs ih =>
    by_cases hx : isDelim x = true
    · rw [fields_cons_delim x xs hx, ih]
      have hx2 := (isDelim_iff x).mp hx
      constructor
      · intro h c hc
        rcases List.mem_cons.mp hc with h1 | h1
        · subst h1; exact hx2
        · exact h c h1
      · intro h c hc
        exact h c (List.mem_cons_of_mem _ hc)
    · have hsplit := List.takeWhile_append_dropWhile (fun c => !isDelim c) (x :: xs)
      have hrun := fields_run ((x :: xs).takeWhile (fun c => !isDelim c))
        ((x :: xs).dropWhile (fun c => !isDelim c))
        (by simp [List.takeWhile_cons, hx])
        (fun y hy => by simpa using List.mem_takeWhile_imp hy)
        (fun d hd => by
          have h2 := List.head?_dropWhile_not (fun c => !isDelim c) (x :: xs)
          rw [Option.mem_def] at hd
          rw [hd] at h2
          simpa using h2)
      rw [hsplit] at hrun
      constructor
      · intro h
        rw [h] at hrun
        exact absurd hrun (by simp)
      · intro h
        exact absurd ((isDelim_iff x).mpr (h x (List.mem_cons_self _ _))) hx

/-! ## Lemmas on the history buffer -/

theorem history_init_inv : HistoryInv history_init [] := by
  refine ⟨by decide, rfl, rfl, ?_, ?_⟩
  · intro k hk; simp at hk
  · intro j _ hj
    have h10 : HISTORY_SIZE.toNat = 10 := by decide
    show (List.replicate HISTORY_SIZE.toNat ([] : CString))[j]? = some []
    rw [h10, List.getElem?_replicate_of_lt hj]

theorem history_add_skip (h : History) (l : Option CString) (hl : recorded1 l = none) :
    history_add h l = some h := by
  cases l with
  | none => rfl
  | some s =>
    cases s with
    | nil => rfl
    | cons c cs => simp [recorded1] at hl

/-- State after storing the text `x` while `n` texts were recorded before. -/
theorem history_add_store (h : History) (rec : List CString) (c : Char) (cs : CString)
    (hinv : HistoryInv h rec) :
    history_add h (some (c :: cs)) =
      if (rec.length : Int) < INT_MAX then
        some { history := h.history.set (rec.length % 10)
                 ((c :: cs).take (MAX_LINE - 1).toNat),
               history_count := (rec.length : Int) + 1,
               history_next := (((rec.length + 1) % 10 : Nat) : Int) }
      else none := by
  have hn := hinv.next
  have hc := hinv.count
  have htn : h.history_next.toNat = rec.length % 10 := by omega
  simp only [history_add, HISTORY_SIZE, hc]
  by_cases hlt : (rec.length : Int) < INT_MAX
  · have hg : 0 ≤ h.history_next ∧ h.history_next < 10 ∧ (rec.length : Int) < INT_MAX := by
      refine ⟨by omega, by omega, hlt⟩
    rw [if_pos hg, if_pos hlt, htn]
    congr 2
    rw [hn]
    split <;> omega
  · have hg : ¬ (0 ≤ h.history_next ∧ h.history_next < 10 ∧ (rec.length : Int) < INT_MAX) :=
      fun hg => hlt hg.2.2
    rw [if_neg hg, if_neg hlt]

theorem historyInv_store (h : History) (rec : List CString) (x : CString)
    (hinv : HistoryInv h rec) :
    HistoryInv { history := h.history.set (rec.length % 10) x,
                 history_count := (rec.length : Int) + 1,
                 history_next := (((rec.length + 1) % 10 : Nat) : Int) } (rec ++ [x]) := by
  have hsz := hinv.size
  refine ⟨by simp [hsz], by simp, by simp, ?_, ?_⟩
  · intro k hk1 hk2
    simp only [List.length_append, List.length_singleton] at hk1 hk2
    show (h.history.set (rec.length % 10) x)[k % 10]? = (rec ++ [x])[k]?
    by_cases hk : k = rec.length
    · subst hk
      rw [List.getElem?_set_self (by omega), List.getElem?_append_right (le_refl _)]
      simp
    · have hne : rec.length % 10 ≠ k % 10 := by omega
      rw [List.getElem?_set_ne hne, List.getElem?_append_left (by omega)]
      exact hinv.recent k (by omega) (by omega)
  · intro j hj1 hj2
    simp only [List.length_append, List.length_singleton] at hj1
    show (h.history.set (rec.length % 10) x)[j]? = some []
    have hne : rec.length % 10 ≠ j := by omega
    rw [List.getElem?_set_ne hne]
    exact hinv.unused j (by omega) hj2

theorem recorded_cons (l : Option CString) (ls : List (Option CString)) :
    recorded (l :: ls) = (recorded1 l).toList ++ recorded ls := by
  unfold recorded
  rw [List.filterMap_cons]
  cases recorded1 l <;> rfl

/-- Every `history_add` call that returns keeps the relation. -/
theorem history_add_inv (h h1 : History) (rec : List CString) (l : Option CString)
    (hinv : HistoryInv h rec) (hadd : history_add h l = some h1) :
    HistoryInv h1 (rec ++ (recorded1 l).toList) := by
  cases hl : recorded1 l with
  | none =>
    rw [history_add_skip h l hl] at hadd
    cases hadd
    simpa using hinv
  | some x =>
    cases l with
    | none => simp [recorded1] at hl
    | some s =>
      cases s with
      | nil => simp [recorded1] at hl
      | cons c cs =>
        simp only [recorded1, Option.some.injEq] at hl
        rw [history_add_store h rec c cs hinv] at hadd
        split at hadd
        · cases hadd
          rw [hl]
          exact historyInv_store h rec x hinv
        · cases hadd

/-- A `history_add` call returns as long as the counter stays within `int`. -/
theorem history_add_defined (h : History) (rec : List CString) (l : Option CString)
    (hinv : HistoryInv h rec)
    (hb : ((rec ++ (recorded1 l).toList).length : Int) ≤ INT_MAX) :
    ∃ h1, history_add h l = some h1 := by
  cases hl : recorded1 l with
  | none => exact ⟨h, history_add_skip h l hl⟩
  | some x =>
    cases l with
    | none => simp [recorded1] at hl
    | some s =>
      cases s with
      | nil => simp [recorded1] at hl
      | cons c cs =>
        rw [hl] at hb
        simp only [Option.toList, List.length_append, List.length_singleton] at hb
        rw [history_add_store h rec c cs hinv, if_pos (by push_cast at hb; omega)]
        exact ⟨_, rfl⟩

theorem history_add_all_inv (lines : List (Option CString)) :
    ∀ (h h1 : History) (rec : List CString), HistoryInv h rec →
      history_add_all h lines = some h1 → HistoryInv h1 (rec ++ recorded lines) := by
  induction lines with
  | nil =>
    intro h h1 rec hinv hadd
    simp only [history_add_all, Option.some.injEq] at hadd
    subst hadd
    simpa [recorded] using hinv
  | cons l ls ih =>
    intro h h1 rec hinv hadd
    simp only [history_add_all] at hadd
    cases hstep : history_add h l with
    | none => rw [hstep] at hadd; cases hadd
    | some h2 =>
      rw [hstep] at hadd
      have h3 := ih h2 h1 _ (history_add_inv h h2 rec l hinv hstep) hadd
      rw [recorded_cons, ← List.append_assoc]
      exact h3

theorem history_add_all_defined (lines : List (Option CString)) :
    ∀ (h : History) (rec : List CString), HistoryInv h rec →
      ((rec ++ recorded lines).length : Int) ≤ INT_MAX →
      ∃ h1, history_add_all h lines = some h1 := by
  induction lines with
  | nil => intro h _ _ _; exact ⟨h, rfl⟩
  | cons l ls ih =>
    intro h rec hinv hb
    rw [recorded_cons, ← List.append_assoc] at hb
    have hb1 : ((rec ++ (recorded1 l).toList).length : Int) ≤ INT_MAX := by
      rw [List.length_append] at hb
      omega
    obtain ⟨h2, hstep⟩ := history_add_defined h rec l hinv hb1
    obtain ⟨h1, hrest⟩ := ih h2 _ (history_add_inv h h2 rec l hinv hstep) hb
    exact ⟨h1, by simp only [history_add_all, hstep, hrest]⟩

/-- The printing loop, from `i` on, with `m` entries left. -/
theorem history_print_loop_spec (h : History) (E : Nat) (si sn : Int) (f : Nat → CString)
    (hslot : ∀ j : Nat, j < E →
      history_slot h (if si + (j : Int) ≥ HISTORY_SIZE then Int.tmod (si + (j : Int)) HISTORY_SIZE
        else si + (j : Int)) = some (f j)) :
    ∀ (m fuel i : Nat), i + m = E → m < fuel →
      history_print_loop h (E : Int) si sn fuel (i : Int) =
        some ((List.range' i m).map fun (j : Nat) => Output.printf_d_s (sn + (j : Int)) (f j)) := by
  intro m
  induction m with
  | zero =>
    intro fuel i hi hfuel
    obtain ⟨fuel1, rfl⟩ : ∃ k, fuel = k + 1 := ⟨fuel - 1, by omega⟩
    have hnot : ¬ ((i : Int) < (E : Int)) := by omega
    simp [history_print_loop, hnot]
  | succ m ih =>
    intro fuel i hi hfuel
    obtain ⟨fuel1, rfl⟩ : ∃ k, fuel = k + 1 := ⟨fuel - 1, by omega⟩
    have hlt : (i : Int) < (E : Int) := by omega
    have hrec := ih fuel1 (i + 1) (by omega) (by omega)
    rw [Nat.cast_add, Nat.cast_one] at hrec
    simp only [history_print_loop, if_pos hlt, hslot i (by omega), hrec, List.range'_succ,
      List.map_cons]

/-- Closed form of `history_print` on a state that satisfies the relation. -/
theorem history_print_spec (h : History) (rec : List CString) (hinv : HistoryInv h rec) :
    history_print h =
      some (if rec.length = 0 then [Output.puts "No history.".toList] else rendered rec) := by
  have hc := hinv.count
  have hn := hinv.next
  by_cases h0 : rec.length = 0
  · have hz : h.history_count = 0 := by omega
    simp [history_print, hz, h0]
  · have hnz : ¬ (h.history_count = 0) := by omega
    have h10 : HISTORY_SIZE.toNat = 10 := by decide
    have hE : (if h.history_count > HISTORY_SIZE then HISTORY_SIZE else h.history_count) =
        ((min rec.length 10 : Nat) : Int) := by
      simp only [HISTORY_SIZE]
      split <;> omega
    have hsn : (if h.history_count < HISTORY_SIZE then (1 : Int)
          else h.history_count - ((min rec.length 10 : Nat) : Int) + 1) =
        max 1 ((rec.length : Int) - HISTORY_SIZE + 1) := by
      simp only [HISTORY_SIZE]
      split <;> omega
    have hloop := history_print_loop_spec h (min rec.length 10)
      (if h.history_count < HISTORY_SIZE then 0 else h.history_next)
      (max 1 ((rec.length : Int) - HISTORY_SIZE + 1))
      (fun j => rec.getD (rec.length - 10 + j) [])
      (by
        intro j hj
        have hk1 : rec.length - 10 + j < rec.length := by omega
        have hk := hinv.recent (rec.length - 10 + j) hk1 (by omega)
        rw [List.getElem?_eq_getElem hk1] at hk
        have hget : rec.getD (rec.length - 10 + j) [] = rec[rec.length - 10 + j] := by
          rw [List.getD_eq_getElem?_getD, List.getElem?_eq_getElem hk1]
          rfl
        show _ = some (rec.getD (rec.length - 10 + j) [])
        rw [hget, ← hk]
        have hidx : (if (if h.history_count < HISTORY_SIZE then 0 else h.history_next) + (j : Int)
              ≥ HISTORY_SIZE
            then Int.tmod ((if h.history_count < HISTORY_SIZE then 0 else h.history_next)
              + (j : Int)) HISTORY_SIZE
            else (if h.history_count < HISTORY_SIZE then 0 else h.history_next) + (j : Int)) =
            (((rec.length - 10 + j) % 10 : Nat) : Int) := by
          by_cases hlt10 : h.history_count < HISTORY_SIZE
          · rw [if_pos hlt10]
            simp only [HISTORY_SIZE] at hlt10 ⊢
            have hno : ¬ ((0 : Int) + (j : Int) ≥ 10) := by omega
            rw [if_neg hno]
            omega
          · rw [if_neg hlt10]
            simp only [HISTORY_SIZE] at hlt10 ⊢
            by_cases hge : h.history_next + (j : Int) ≥ 10
            · rw [if_pos hge, Int.tmod_eq_emod (by omega) (by omega)]
              omega
            · rw [if_neg hge]
              omega
        rw [hidx]
        simp only [history_slot, HISTORY_SIZE]
        rw [if_pos (by omega), Int.toNat_ofNat])
      (min rec.length 10) (HISTORY_SIZE.toNat + 1) 0 (by omega) (by omega)
    simp only [history_print, if_neg hnz, if_neg h0, hE, hsn]
    rw [Nat.cast_zero] at hloop
    rw [hloop, rendered, h10, List.range_eq_range']

/-- Appending from the initial state and then printing, in closed form. -/
theorem history_render_spec (lines : List (Option CString))
    (hb : ((recorded lines).length : Int) ≤ INT_MAX) :
    (history_add_all history_init lines).bind history_print =
      some (if (recorded lines).length = 0 then [Output.puts "No history.".toList]
        else rendered (recorded lines)) := by
  obtain ⟨h1, hadd⟩ := history_add_all_defined lines history_init [] history_init_inv
    (by simpa using hb)
  have hinv := history_add_all_inv lines history_init h1 [] history_init_inv hadd
  rw [List.nil_append] at hinv
  rw [hadd, Option.some_bind, history_print_spec h1 _ hinv]

theorem recorded_map_some (lines : List CString) (hne : ∀ l ∈ lines, l ≠ []) :
    recorded (lines.map some) = lines.map (fun l => l.take (MAX_LINE - 1).toNat) := by
  induction lines with
  | nil => rfl
  | cons l ls ih =>
    rw [List.map_cons, recorded_cons, ih (fun x hx => hne x (List.mem_cons_of_mem _ hx))]
    cases l with
    | nil => exact absurd rfl (hne [] (List.mem_cons_self _ _))
    | cons c cs => rfl

theorem rendered_length (rec : List CString) :
    (rendered rec).length = min rec.length HISTORY_SIZE.toNat := by
  simp [rendered]

theorem rendered_getElem? (rec : List CString) (i : Nat)
    (hi : i < min rec.length HISTORY_SIZE.toNat) :
    (rendered rec)[i]? =
      some (Output.printf_d_s (max 1 ((rec.length : Int) - HISTORY_SIZE + 1) + (i : Int))
        (rec.getD (rec.length - HISTORY_SIZE.toNat + i) [])) := by
  unfold rendered
  rw [List.getElem?_map, List.getElem?_range hi]
  rfl

/-- A single line of more than 1023 characters `a` is rendered as entry 1 with
1023 characters. -/
theorem render_long_line (n : Nat) (hn : 1023 ≤ n) :
    (history_add_all history_init [some (List.replicate (n + 1) 'a')]).bind history_print =
      some [Output.printf_d_s 1 (List.replicate 1023 'a')] := by
  have h1023 : (MAX_LINE - 1).toNat = 1023 := by decide
  have htake : ('a' :: List.replicate n 'a').take (MAX_LINE - 1).toNat =
      List.replicate 1023 'a' := by
    rw [h1023, ← List.replicate_succ, List.take_replicate, Nat.min_eq_left (by omega)]
  have hrec : recorded [some (List.replicate (n + 1) 'a')] = [List.replicate 1023 'a'] := by
    rw [List.replicate_succ]
    show [('a' :: List.replicate n 'a').take (MAX_LINE - 1).toNat] = _
    rw [htake]
  have h := history_render_spec [some (List.replicate (n + 1) 'a')] (by rw [hrec]; decide)
  rw [hrec] at h
  generalize List.replicate 1023 'a' = x at h ⊢
  exact h.trans (by simp [rendered, HISTORY_SIZE, List.range_succ])

/-! ## Lemmas on the dispatcher -/

/-- Closed form of the `cd` branch of `handle_builtin`. -/
theorem handle_builtin_cd_eq {σ : Type} (sys : Sys σ) (rest : List CString) (argc : Int)
    (argv : Argv) (w : Shell σ) (hv : IsArgv ("cd".toList :: rest) argc argv) :
    handle_builtin sys argc argv w =
      match sys.chdir w.os (cd_target (sys.getenv "HOME".toList) ("cd".toList :: rest)) with
      | Except.ok os1 => some (1, { w with os := os1 })
      | Except.error e =>
        some (1, { w with out := w.out ++ [Output.perror "cd".toList e] }) := by
  obtain ⟨hc, hslots, _⟩ := hv
  have h0 : argv 0 = some "cd".toList := by
    rw [hslots 0 (by simp)]; simp
  have hne : ¬ (argc = 0) := by
    rw [hc]; simp only [List.length_cons]; omega
  have hexit : ¬ ("cd".toList = "exit".toList) := by decide
  cases rest with
  | nil =>
    have h2 : ¬ (argc ≥ 2) := by
      rw [hc]; simp
    simp only [handle_builtin, if_neg hne, h0, if_neg hexit, if_true, if_neg h2, cd_target]
    cases sys.getenv "HOME".toList <;> rfl
  | cons t rest1 =>
    have h2 : argc ≥ 2 := by
      rw [hc]; simp only [List.length_cons]; omega
    have h1 : argv 1 = some t := by
      rw [hslots 1 (by simp)]; simp
    simp only [handle_builtin, if_neg hne, h0, if_neg hexit, if_true, if_pos h2, h1, cd_target]

/-! ## Lemmas on joining and trimming -/

/-- Leading separators do not change the fields. -/
theorem fields_append_delims (s r : CString) (hs : ∀ c ∈ s, isDelim c = true) :
    fields (s ++ r) = fields r := by
  induction s with
  | nil => rfl
  | cons c s ih =>
    rw [List.cons_append, fields_cons_delim c _ (hs c (List.mem_cons_self _ _))]
    exact ih (fun x hx => hs x (List.mem_cons_of_mem _ hx))

/-- Dropping a leading separator does not change the fields. -/
theorem fields_tail (r : CString) (hr : ∀ d ∈ r.head?, isDelim d = true) :
    fields r.tail = fields r := by
  cases r with
  | nil => rfl
  | cons d r1 =>
    rw [fields_cons_delim d r1 (hr d (by simp))]
    rfl

/-- A token in front of a text that is empty or starts with a separator. -/
theorem fields_token_append (t r : CString) (hne : t ≠ [])
    (ht : ∀ c ∈ t, ¬ isDelim c = true) (hr : ∀ d ∈ r.head?, isDelim d = true) :
    fields (t ++ r) = t :: fields r := by
  rw [fields_run t r hne ht hr, fields_tail r hr]

theorem join_tokens_head (seps ts : List CString)
    (hdel : ∀ s ∈ seps, ∀ c ∈ s, isDelim c = true)
    (hinner : ts ≠ [] → seps.head? ≠ some []) :
    ∀ d ∈ (join_tokens seps ts).head?, isDelim d = true := by
  intro d hd
  cases seps with
  | nil => simp [join_tokens] at hd
  | cons s seps1 =>
    cases ts with
    | nil =>
      simp only [join_tokens] at hd
      exact hdel s (List.mem_cons_self _ _) d (List.mem_of_mem_head? hd)
    | cons t ts1 =>
      cases s with
      | nil => exact absurd rfl (hinner (by simp))
      | cons c s1 =>
        simp only [join_tokens, List.cons_append, List.head?_cons, Option.mem_def,
          Option.some.injEq] at hd
        subst hd
        exact hdel (c :: s1) (List.mem_cons_self _ _) c (List.mem_cons_self _ _)

/-- The fields of a line joined from tokens and separators are the tokens. -/
theorem fields_join_tokens (ts : List CString) :
    ∀ seps : List CString, seps.length = ts.length + 1 →
      (∀ s ∈ seps, ∀ c ∈ s, isDelim c = true) →
      (∀ i : Nat, 0 < i → i < ts.length → seps[i]? ≠ some []) →
      (∀ t ∈ ts, t ≠ [] ∧ ∀ c ∈ t, ¬ isDelim c = true) →
      fields (join_tokens seps ts) = ts := by
  induction ts with
  | nil =>
    intro seps hlen hdel _ _
    cases seps with
    | nil => simp at hlen
    | cons s seps1 =>
      simp only [join_tokens]
      have h := fields_append_delims s [] (hdel s (List.mem_cons_self _ _))
      rw [List.append_nil] at h
      rw [h, fields_nil]
  | cons t ts1 ih =>
    intro seps hlen hdel hinner htok
    cases seps with
    | nil => simp at hlen
    | cons s seps1 =>
      have hlen1 : seps1.length = ts1.length + 1 := by
        simp only [List.length_cons] at hlen
        omega
      have hdel1 : ∀ s ∈ seps1, ∀ c ∈ s, isDelim c = true :=
        fun x hx => hdel x (List.mem_cons_of_mem _ hx)
      have hinner1 : ∀ i : Nat, 0 < i → i < ts1.length → seps1[i]? ≠ some [] := by
        intro i hi1 hi2
        have h := hinner (i + 1) (by omega) (by simp only [List.length_cons]; omega)
        simpa using h
      have hhead : ts1 ≠ [] → seps1.head? ≠ some [] := by
        intro hne
        have hpos : 0 < ts1.length := List.length_pos.mpr hne
        have h := hinner 1 (by omega) (by simp only [List.length_cons]; omega)
        cases seps1 with
        | nil => simp
        | cons a b => simpa using h
      simp only [join_tokens]
      rw [List.append_assoc, fields_append_delims s _ (hdel s (List.mem_cons_self _ _)),
        fields_token_append t _ (htok t (List.mem_cons_self _ _)).1
          (htok t (List.mem_cons_self _ _)).2 (join_tokens_head seps1 ts1 hdel1 hhead),
        ih seps1 hlen1 hdel1 hinner1 (fun x hx => htok x (List.mem_cons_of_mem _ hx))]

/-- The fields of tokens joined with single spaces are the tokens. -/
theorem fields_intercalate (ts : List CString)
    (htok : ∀ t ∈ ts, t ≠ [] ∧ ∀ c ∈ t, ¬ isDelim c = true) :
    fields (List.intercalate [' '] ts) = ts := by
  induction ts with
  | nil => rfl
  | cons t ts1 ih =>
    have ht := htok t (List.mem_cons_self _ _)
    have ih1 := ih (fun x hx => htok x (List.mem_cons_of_mem _ hx))
    cases ts1 with
    | nil =>
      have h := fields_token_append t [] ht.1 ht.2 (by simp)
      rw [List.append_nil, fields_nil] at h
      simpa [List.intercalate] using h
    | cons t2 ts2 =>
      have hstep : List.intercalate [' '] (t :: t2 :: ts2) =
          t ++ (' ' :: List.intercalate [' '] (t2 :: ts2)) := by
        simp [List.intercalate, List.intersperse]
      rw [hstep, fields_token_append t _ ht.1 ht.2 (by simp [isDelim]),
        fields_cons_delim ' ' _ (by decide), ih1]

theorem not_isDelim_of_ne (c : Char) (h : c ≠ ' ' ∧ c ≠ '\t') : ¬ isDelim c = true := by
  rw [isDelim_iff]
  exact fun h2 => h2.elim h.1 h.2

theorem trim_newline_append (t : CString) : trim_newline (t ++ ['\n']) = t := by
  simp [trim_newline]

theorem trim_newline_other (s : CString) (h : s.getLast? ≠ some '\n') : trim_newline s = s := by
  unfold trim_newline
  have h2 : ¬ (s.length > 0 ∧ s[s.length - 1]? = some '\n') := by
    rintro ⟨_, h3⟩
    rw [List.getLast?_eq_getElem?] at h
    exact h h3
  simp only [if_neg h2]

theorem trim_newline_length (s : CString) : (trim_newline s).length ≤ s.length := by
  simp only [trim_newline]
  split
  · simp
  · exact le_refl _

/-! ## Lemmas on the command loop -/

theorem read_chars_length (n : Nat) : ∀ s : List Char, (read_chars n s).1.length ≤ n := by
  induction n with
  | zero => intro s; simp [read_chars]
  | succ n ih =>
    intro s
    cases s with
    | nil => simp [read_chars]
    | cons c s =>
      simp only [read_chars]
      split
      · simp
      · simp only [List.length_cons]
        have := ih s
        omega

theorem read_chars_rest (n : Nat) :
    ∀ s : List Char, s ≠ [] → (read_chars (n + 1) s).2.length < s.length := by
  induction n with
  | zero =>
    intro s hs
    cases s with
    | nil => exact absurd rfl hs
    | cons c s =>
      simp only [read_chars]
      split <;> simp
  | succ n ih =>
    intro s hs
    cases s with
    | nil => exact absurd rfl hs
    | cons c s =>
      rw [read_chars]
      split
      · simp
      · simp only [List.length_cons]
        cases s with
        | nil => simp [read_chars]
        | cons d s1 =>
          have := ih (d :: s1) (by simp)
          simp only [List.length_cons] at this ⊢
          omega

/-- A line delivered by `fgets(line, MAX_LINE, stdin)` has at most 1023
characters, and at least one character is taken from the stream. -/
theorem fgets_some (s : List Char) (raw : CString) (rest : List Char)
    (h : fgets MAX_LINE s = some (raw, rest)) :
    raw.length ≤ 1023 ∧ rest.length < s.length := by
  have h1023 : (MAX_LINE - 1).toNat = 1022 + 1 := by decide
  cases s with
  | nil => simp [fgets] at h
  | cons c s1 =>
    simp only [fgets, Option.some.injEq, Prod.mk.injEq] at h
    obtain ⟨h1, h2⟩ := h
    subst h1
    subst h2
    constructor
    · have ha := (List.takeWhile_sublist (fun c => decide (c ≠ '\x00'))
        (l := (read_chars (MAX_LINE - 1).toNat (c :: s1)).1)).length_le
      have hb := read_chars_length (MAX_LINE - 1).toNat (c :: s1)
      rw [h1023] at ha hb
      rw [h1023]
      omega
    · rw [h1023]
      exact read_chars_rest 1022 (c :: s1) (by simp)

/-- The iteration that reads a line: the line is recorded first, then the
tokens are dispatched in the state that already holds the entry. -/
theorem main_iteration_line {σ : Type} (sys : Sys σ) (px : Procs σ) (p : Proc σ)
    (rec : List CString) (raw : CString) (rest : List Char)
    (hcc : p.cmd_count < INT_MAX) (hinv : HistoryInv p.sh.hist rec)
    (hrec : (rec.length : Int) < INT_MAX)
    (hf : fgets MAX_LINE p.stdin = some (raw, rest)) :
    ∃ hist1, history_add p.sh.hist (some (trim_newline raw)) = some hist1 ∧
      HistoryInv hist1 (rec ++ (recorded1 (some (trim_newline raw))).toList) ∧
      (recorded1 (some (trim_newline raw))).toList =
        (if trim_newline raw = [] then [] else [trim_newline raw]) ∧
      main_iteration sys px p =
        main_dispatch sys px
          ((((fields (trim_newline raw)).take (MAX_ARGS - 1).toNat).length : Nat) : Int)
          (dispatch_state px p hist1 (trim_newline raw) rest) := by
  have hlen : (trim_newline raw).length ≤ 1023 :=
    le_trans (trim_newline_length raw) (fgets_some p.stdin raw rest hf).1
  have h1023 : (MAX_LINE - 1).toNat = 1023 := by decide
  have htake : (trim_newline raw).take (MAX_LINE - 1).toNat = trim_newline raw := by
    rw [h1023]; exact List.take_of_length_le hlen
  have hrec1 : (recorded1 (some (trim_newline raw))).toList =
      (if trim_newline raw = [] then [] else [trim_newline raw]) := by
    cases hl : trim_newline raw with
    | nil => rfl
    | cons c cs =>
      rw [hl] at htake
      simp only [recorded1, htake]
      rfl
  obtain ⟨hist1, hadd⟩ := history_add_defined p.sh.hist rec (some (trim_newline raw)) hinv
    (by
      rw [List.length_append, hrec1]
      split
      · simp only [List.length_nil]; push_cast; omega
      · simp only [List.length_singleton, INT_MAX] at hrec ⊢; push_cast; omega)
  refine ⟨hist1, hadd, history_add_inv _ _ rec _ hinv hadd, hrec1, ?_⟩
  simp only [main_iteration, if_pos hcc, hf, htake, print_prompt, hadd, parse_args_spec]
  rfl

theorem isArgv_head (t : CString) (rest : List CString) (argc : Int) (argv : Argv)
    (hv : IsArgv (t :: rest) argc argv) : argc ≠ 0 ∧ 0 < argc ∧ argv 0 = some t := by
  obtain ⟨hc, hslots, _⟩ := hv
  refine ⟨?_, ?_, ?_⟩
  · rw [hc]; simp only [List.length_cons]; omega
  · rw [hc]; simp only [List.length_cons]; omega
  · rw [hslots 0 (by simp)]; simp

theorem handle_builtin_nil {σ : Type} (sys : Sys σ) (argc : Int) (argv : Argv) (w : Shell σ)
    (hv : IsArgv [] argc argv) : handle_builtin sys argc argv w = some (1, w) := by
  have h0 : argc = 0 := by simpa using hv.1
  simp [handle_builtin, h0]

theorem handle_builtin_history_eq {σ : Type} (sys : Sys σ) (rest : List CString) (argc : Int)
    (argv : Argv) (w : Shell σ) (rec : List CString) (hinv : HistoryInv w.hist rec)
    (hv : IsArgv ("history".toList :: rest) argc argv) :
    handle_builtin sys argc argv w =
      some (1, { w with out := w.out ++
        (if rec.length = 0 then [Output.puts "No history.".toList] else rendered rec) }) := by
  obtain ⟨hne, _, h0⟩ := isArgv_head _ rest argc argv hv
  have h1 : ¬ ("history".toList = "exit".toList) := by decide
  have h2 : ¬ ("history".toList = "cd".toList) := by decide
  have h3 : ¬ ("history".toList = "help".toList) := by decide
  simp only [handle_builtin, if_neg hne, h0, if_neg h1, if_neg h2, if_neg h3, if_true,
    history_print_spec w.hist rec hinv]

/-- What `handle_builtin` can return: one of -1, 1, 0; the history variables
are never changed; with 0 or -1 nothing is changed; 0 needs `argc ≠ 0` and a
first token other than the four builtin names. -/
theorem handle_builtin_result {σ : Type} (sys : Sys σ) (argc : Int) (argv : Argv)
    (w w2 : Shell σ) (b : Int) (h : handle_builtin sys argc argv w = some (b, w2)) :
    w2.hist = w.hist ∧ (b = -1 ∨ b = 1 ∨ b = 0) ∧ (b ≠ 1 → w2 = w) ∧
      (b = 0 → argc ≠ 0 ∧ ∃ t, argv 0 = some t ∧ t ≠ "exit".toList ∧ t ≠ "cd".toList ∧
        t ≠ "help".toList ∧ t ≠ "history".toList) := by
  unfold handle_builtin at h
  by_cases hz : argc = 0
  · rw [if_pos hz] at h
    cases h
    exact ⟨rfl, Or.inr (Or.inl rfl), fun h => absurd rfl h, fun h => by cases h⟩
  · rw [if_neg hz] at h
    cases h0 : argv 0 with
    | none => rw [h0] at h; cases h
    | some t =>
      rw [h0] at h
      simp only at h
      by_cases h1 : t = "exit".toList
      · rw [if_pos h1] at h
        cases h
        exact ⟨rfl, Or.inl rfl, fun _ => rfl, fun h => by cases h⟩
      · rw [if_neg h1] at h
        by_cases h2 : t = "cd".toList
        · rw [if_pos h2] at h
          cases hch : sys.chdir w.os
              (match if argc ≥ 2 then argv 1 else sys.getenv "HOME".toList with
               | none => ".".toList
               | some t => t) with
          | ok os1 =>
            rw [hch] at h
            cases h
            exact ⟨rfl, Or.inr (Or.inl rfl), fun h => absurd rfl h, fun h => by cases h⟩
          | error e =>
            rw [hch] at h
            cases h
            exact ⟨rfl, Or.inr (Or.inl rfl), fun h => absurd rfl h, fun h => by cases h⟩
        · rw [if_neg h2] at h
          by_cases h3 : t = "help".toList
          · rw [if_pos h3] at h
            cases h
            exact ⟨rfl, Or.inr (Or.inl rfl), fun h => absurd rfl h, fun h => by cases h⟩
          · rw [if_neg h3] at h
            by_cases h4 : t = "history".toList
            · rw [if_pos h4] at h
              cases hp : history_print w.hist with
              | none => rw [hp] at h; cases h
              | some o =>
                rw [hp] at h
                cases h
                exact ⟨rfl, Or.inr (Or.inl rfl), fun h => absurd rfl h, fun h => by cases h⟩
            · rw [if_neg h4] at h
              cases h
              exact ⟨rfl, Or.inr (Or.inr rfl), fun _ => rfl,
                fun _ => ⟨hz, t, rfl, h1, h2, h3, h4⟩⟩

/-- On a well-formed argument vector and a history that satisfies the
relation `handle_builtin` always returns. -/
theorem handle_builtin_defined {σ : Type} (sys : Sys σ) (ts : List CString) (argc : Int)
    (argv : Argv) (w : Shell σ) (rec : List CString) (hv : IsArgv ts argc argv)
    (hinv : HistoryInv w.hist rec) :
    ∃ b w2, handle_builtin sys argc argv w = some (b, w2) := by
  cases ts with
  | nil => exact ⟨_, _, handle_builtin_nil sys argc argv w hv⟩
  | cons t rest =>
    obtain ⟨hne, _, h0⟩ := isArgv_head _ rest argc argv hv
    simp only [handle_builtin, if_neg hne, h0, history_print_spec w.hist rec hinv]
    split
    · exact ⟨_, _, rfl⟩
    · split
      · split <;> exact ⟨_, _, rfl⟩
      · split
        · exact ⟨_, _, rfl⟩
        · split <;> exact ⟨_, _, rfl⟩

theorem argv_list_drop (ts : List CString) (argc : Int) (argv : Argv)
    (hv : IsArgv ts argc argv) :
    ∀ (fuel i : Nat), i ≤ ts.length → ts.length - i < fuel →
      argv_list argv fuel i = some (ts.drop i) := by
  obtain ⟨_, hslots, hend⟩ := hv
  intro fuel
  induction fuel with
  | zero => intro i _ h; omega
  | succ fuel ih =>
    intro i hi hfuel
    by_cases hlt : i < ts.length
    · have hi2 := hslots i hlt
      rw [List.getElem?_eq_getElem hlt] at hi2
      simp only [argv_list, hi2, ih (i + 1) (by omega) (by omega)]
      rw [List.drop_eq_getElem_cons hlt]
    · have hie : i = ts.length := by omega
      subst hie
      simp [argv_list, hend]

theorem argv_list_isArgv (ts : List CString) (argc : Int) (argv : Argv)
    (hv : IsArgv ts argc argv) (hlen : (ts.length : Int) < MAX_ARGS) :
    argv_list argv MAX_ARGS.toNat 0 = some ts := by
  have h := argv_list_drop ts argc argv hv MAX_ARGS.toNat 0 (by omega) (by
    simp only [MAX_ARGS] at hlen ⊢
    omega)
  simpa using h

/-- The body of `run_external` once the file name and the vector handed to
`execvp` are known. -/
theorem run_external_eq {σ : Type} (px : Procs σ) (t : CString) (rest : List CString)
    (argc : Int) (argv : Argv) (p : Proc σ) (hv : IsArgv (t :: rest) argc argv)
    (hlen : (((t :: rest).length : Nat) : Int) < MAX_ARGS) :
    run_external px argv p =
      match px.fork p.sh.os with
      | some e =>
        some (Ran.returned { p with
          sh := { p.sh with out := p.sh.out ++ [Output.perror "fork".toList e] },
          calls := p.calls ++ [Call.fork (some e)] })
      | none =>
        match px.execvp p.sh.os t (t :: rest) with
        | Except.error e =>
          match px.waitpid p.sh.os with
          | some e2 =>
            some (Ran.returned { p with
              sh := { p.sh with out := p.sh.out ++ [Output.perror "execvp".toList e] ++
                [Output.perror "waitpid".toList e2] },
              calls := p.calls ++ [Call.fork none, Call.execvp t (t :: rest) (some e),
                Call.child_exit 127] ++ [Call.waitpid_failed e2] })
          | none =>
            some (Ran.returned { p with
              sh := { p.sh with out := p.sh.out ++ [Output.perror "execvp".toList e] },
              calls := p.calls ++ [Call.fork none, Call.execvp t (t :: rest) (some e),
                Call.child_exit 127] ++ [Call.waitpid_ok 127] })
        | Except.ok ending =>
          match px.waitpid p.sh.os with
          | some e2 =>
            some (Ran.returned { p with
              sh := { p.sh with out := p.sh.out ++ [Output.perror "waitpid".toList e2] },
              stdin := input_left p.stdin (px.reads p.sh.os t (t :: rest) p.stdin),
              calls := p.calls ++ [Call.fork none, Call.execvp t (t :: rest) none] ++
                [Call.waitpid_failed e2] })
          | none =>
            match ending with
            | ChildEnd.exited status =>
              some (Ran.returned { p with
                stdin := input_left p.stdin (px.reads p.sh.os t (t :: rest) p.stdin),
                calls := p.calls ++ [Call.fork none, Call.execvp t (t :: rest) none] ++
                  [Call.waitpid_ok status] })
            | ChildEnd.never =>
              some (Ran.blocked { p with
                stdin := input_left p.stdin (px.reads p.sh.os t (t :: rest) p.stdin),
                calls := p.calls ++ [Call.fork none, Call.execvp t (t :: rest) none] }) := by
  have h0 := (isArgv_head t rest argc argv hv).2.2
  have hl := argv_list_isArgv (t :: rest) argc argv hv hlen
  simp only [run_external, h0, hl, List.append_assoc, List.cons_append, List.nil_append]

theorem input_left_length (s : List Char) (kc : Nat × Nat) :
    (input_left s kc).length ≤ s.length := by
  simp only [input_left, List.length_append, List.length_take, List.length_drop]
  omega

/-- Frame of `run_external` on a well-formed non-empty vector: it returns or
blocks (never undefined), makes exactly one `fork` call, hands the vector to
`execvp` when the child is created, leaves the history, the process state and
the locals of `main` as they were, and does not add to the unread input. -/
theorem run_external_frame {σ : Type} (px : Procs σ) (t : CString) (rest : List CString)
    (argc : Int) (argv : Argv) (p : Proc σ) (hv : IsArgv (t :: rest) argc argv)
    (hlen : (((t :: rest).length : Nat) : Int) < MAX_ARGS) :
    ∃ r, run_external px argv p = some r ∧
      r.proc.sh.hist = p.sh.hist ∧ r.proc.sh.os = p.sh.os ∧
      r.proc.stdin.length ≤ p.stdin.length ∧
      r.proc.cmd_count = p.cmd_count ∧ r.proc.argv = p.argv ∧
      forks r.proc.calls = forks p.calls + 1 ∧
      (px.fork p.sh.os = none →
        ∃ e, r.proc.calls = p.calls ++ Call.fork none :: Call.execvp t (t :: rest) e ::
          r.proc.calls.drop (p.calls.length + 2)) := by
  have hle := input_left_length p.stdin (px.reads p.sh.os t (t :: rest) p.stdin)
  rw [run_external_eq px t rest argc argv p hv hlen]
  cases hfk : px.fork p.sh.os with
  | some e =>
    refine ⟨_, rfl, rfl, rfl, le_refl _, rfl, rfl, ?_, fun h => by cases h⟩
    simp [Ran.proc, forks, List.countP_append, List.countP_cons]
  | none =>
    simp only
    cases px.execvp p.sh.os t (t :: rest) with
    | error e =>
      simp only
      cases px.waitpid p.sh.os with
      | some e2 =>
        refine ⟨_, rfl, rfl, rfl, le_refl _, rfl, rfl, ?_, fun _ => ⟨some e, ?_⟩⟩
        · simp [Ran.proc, forks, List.countP_append, List.countP_cons]
        · simp [Ran.proc]
      | none =>
        refine ⟨_, rfl, rfl, rfl, le_refl _, rfl, rfl, ?_, fun _ => ⟨some e, ?_⟩⟩
        · simp [Ran.proc, forks, List.countP_append, List.countP_cons]
        · simp [Ran.proc]
    | ok ending =>
      simp only
      cases px.waitpid p.sh.os with
      | some e2 =>
        refine ⟨_, rfl, rfl, rfl, hle, rfl, rfl, ?_, fun _ => ⟨none, ?_⟩⟩
        · simp [Ran.proc, forks, List.countP_append, List.countP_cons]
        · simp [Ran.proc]
      | none =>
        cases ending with
        | exited status =>
          refine ⟨_, rfl, rfl, rfl, hle, rfl, rfl, ?_, fun _ => ⟨none, ?_⟩⟩
          · simp [Ran.proc, forks, List.countP_append, List.countP_cons]
          · simp [Ran.proc]
        | never =>
          refine ⟨_, rfl, rfl, rfl, hle, rfl, rfl, ?_, fun _ => ⟨none, ?_⟩⟩
          · simp [Ran.proc, forks, List.countP_append, List.countP_cons]
          · simp [Ran.proc]

theorem main_dispatch_builtin {σ : Type} (sys : Sys σ) (px : Procs σ) (argc : Int)
    (p : Proc σ) (b : Int) (sh2 : Shell σ)
    (h : handle_builtin sys argc p.argv p.sh = some (b, sh2)) :
    (b = -1 → main_dispatch sys px argc p = some (Step.stop { p with sh := sh2 })) ∧
    (b = 1 → main_dispatch sys px argc p = some (Step.next { p with sh := sh2 })) := by
  constructor
  · intro hb
    subst hb
    simp only [main_dispatch, h, if_true]
  · intro hb
    subst hb
    have h1 : ¬ ((1 : Int) = -1) := by decide
    simp only [main_dispatch, h, if_neg h1, if_true]

theorem main_dispatch_delegate {σ : Type} (sys : Sys σ) (px : Procs σ) (argc : Int)
    (p : Proc σ) (sh2 : Shell σ) (r : Ran σ) (hpos : 0 < argc)
    (h : handle_builtin sys argc p.argv p.sh = some (0, sh2))
    (hr : run_external px p.argv { p with sh := sh2 } = some r) :
    main_dispatch sys px argc p = some r.step := by
  have h1 : ¬ ((0 : Int) = -1) := by decide
  have h2 : ¬ ((0 : Int) = 1) := by decide
  have h3 : argc > 0 := hpos
  simp only [main_dispatch, h, if_neg h1, if_neg h2, if_pos h3, hr]
  cases r <;> rfl

/-- On a well-formed vector and a history that satisfies the relation,
`main_dispatch` ends the iteration in a defined way, and the history, the
unread input and `cmd_count` are as before. -/
theorem main_dispatch_frame {σ : Type} (sys : Sys σ) (px : Procs σ) (ts : List CString)
    (argc : Int) (p : Proc σ) (rec : List CString) (hv : IsArgv ts argc p.argv)
    (hlen : ((ts.length : Nat) : Int) < MAX_ARGS) (hinv : HistoryInv p.sh.hist rec) :
    ∃ st, main_dispatch sys px argc p = some st ∧ st.proc.sh.hist = p.sh.hist ∧
      st.proc.stdin.length ≤ p.stdin.length ∧ st.proc.cmd_count = p.cmd_count := by
  obtain ⟨b, sh2, hb⟩ := handle_builtin_defined sys ts argc p.argv p.sh rec hv hinv
  obtain ⟨hh, hcases, hsame, hzero⟩ := handle_builtin_result sys argc p.argv p.sh sh2 b hb
  rcases hcases with h1 | h1 | h1
  · exact ⟨_, (main_dispatch_builtin sys px argc p b sh2 hb).1 h1, hh, le_refl _, rfl⟩
  · exact ⟨_, (main_dispatch_builtin sys px argc p b sh2 hb).2 h1, hh, le_refl _, rfl⟩
  · subst h1
    cases ts with
    | nil =>
      have h0 : argc = 0 := by simpa using hv.1
      exact absurd h0 (hzero rfl).1
    | cons t rest =>
      obtain ⟨r, hr, hrh, _, hrs, hrc, _⟩ :=
        run_external_frame px t rest argc p.argv { p with sh := sh2 } hv hlen
      refine ⟨r.step, main_dispatch_delegate sys px argc p sh2 r
        (isArgv_head t rest argc p.argv hv).2.1 hb hr, ?_, ?_, ?_⟩
      · cases r <;> exact hrh.trans hh
      · cases r <;> exact hrs
      · cases r <;> exact hrc

theorem take_length_lt_max_args (l : List CString) :
    (((l.take (MAX_ARGS - 1).toNat).length : Nat) : Int) < MAX_ARGS := by
  have h63 : (MAX_ARGS - 1).toNat = 63 := by decide
  rw [h63, List.length_take]
  simp only [MAX_ARGS]
  omega

/-- Every character of a piece of a split is a character of the list. -/
theorem splitOnP_subset (l : CString) :
    ∀ t ∈ l.splitOnP isDelim, ∀ c ∈ t, c ∈ l := by
  induction l with
  | nil => simp
  | cons x xs ih =>
    rw [List.splitOnP_cons]
    by_cases hx : isDelim x = true
    · rw [if_pos hx]
      intro t ht c hc
      rcases List.mem_cons.mp ht with h | h
      · subst h; simp at hc
      · exact List.mem_cons_of_mem _ (ih t h c hc)
    · rw [if_neg hx]
      cases hsp : xs.splitOnP isDelim with
      | nil => exact absurd hsp (List.splitOnP_ne_nil isDelim xs)
      | cons hd tl =>
        rw [hsp] at ih
        intro t ht c hc
        simp only [List.modifyHead_cons, List.mem_cons] at ht
        rcases ht with h | h
        · subst h
          rcases List.mem_cons.mp hc with h1 | h1
          · subst h1; exact List.mem_cons_self _ _
          · exact List.mem_cons_of_mem _ (ih hd (List.mem_cons_self _ _) c h1)
        · exact List.mem_cons_of_mem _ (ih t (List.mem_cons_of_mem _ h) c hc)

theorem fields_subset (line t : CString) (ht : t ∈ fields line) : ∀ c ∈ t, c ∈ line := by
  unfold fields at ht
  exact splitOnP_subset line t (List.mem_filter.mp ht).1

theorem fgets_newline (rest : List Char) :
    fgets MAX_LINE ('\n' :: rest) = some (['\n'], rest) := by
  have h1023 : (MAX_LINE - 1).toNat = 1022 + 1 := by decide
  simp [fgets, h1023, read_chars]

/-- The iteration that reads a line consisting of the terminator alone: the
prompt is printed, nothing is recorded, there is no token, and the next
iteration follows. -/
theorem main_iteration_newline {σ : Type} (sys : Sys σ) (px : Procs σ) (p : Proc σ)
    (rest : List Char) (hcc : p.cmd_count < INT_MAX) (hin : p.stdin = '\n' :: rest) :
    main_iteration sys px p =
      some (Step.next (dispatch_state px p p.sh.hist [] rest)) := by
  have htrim : trim_newline ['\n'] = [] := by decide
  have hadd : ∀ h : History, history_add h (some []) = some h := fun _ => rfl
  have h1 : ¬ ((1 : Int) = -1) := by decide
  have hb : ∀ w : Shell σ,
      handle_builtin sys ((0 : Nat) : Int) (argv_after p.argv []) w = some (1, w) :=
    fun w => handle_builtin_nil sys _ _ w (isArgv_argv_after p.argv [])
  simp only [main_iteration, if_pos hcc, hin, fgets_newline, htrim, List.take_nil,
    print_prompt, hadd, parse_args_spec, fields_nil, List.length_nil, main_dispatch, hb,
    if_neg h1, if_true]
  rfl

/-- An iteration that reads a line ends in a defined way, with the line
recorded (if it is not empty), no more input unread than the line left, and
`cmd_count` incremented. -/
theorem main_iteration_step {σ : Type} (sys : Sys σ) (px : Procs σ) (p : Proc σ)
    (rec : List CString) (raw : CString) (rest : List Char)
    (hcc : p.cmd_count < INT_MAX) (hinv : HistoryInv p.sh.hist rec)
    (hrec : (rec.length : Int) < INT_MAX)
    (hf : fgets MAX_LINE p.stdin = some (raw, rest)) :
    ∃ st, main_iteration sys px p = some st ∧
      HistoryInv st.proc.sh.hist
        (rec ++ (if trim_newline raw = [] then [] else [trim_newline raw])) ∧
      st.proc.stdin.length ≤ rest.length ∧ st.proc.cmd_count = p.cmd_count + 1 := by
  obtain ⟨hist1, _, hinv1, hrec1, hiter⟩ :=
    main_iteration_line sys px p rec raw rest hcc hinv hrec hf
  rw [hrec1] at hinv1
  obtain ⟨st, hst, hh, hs, hc⟩ := main_dispatch_frame sys px
    ((fields (trim_newline raw)).take (MAX_ARGS - 1).toNat) _
    (dispatch_state px p hist1 (trim_newline raw) rest) _
    (isArgv_argv_after p.argv _) (take_length_lt_max_args _) hinv1
  refine ⟨st, hiter.trans hst, ?_, hs, hc⟩
  rw [hh]
  exact hinv1

/-- In every state at the start of an iteration the history satisfies the
relation for some list of recorded texts, not longer than `cmd_count`. -/
theorem reachable_inv {σ : Type} (sys : Sys σ) (px : Procs σ) (os : σ) (stdin : List Char)
    (argv : Argv) (p : Proc σ) (hp : Reachable sys px os stdin argv p) :
    ∃ rec, HistoryInv p.sh.hist rec ∧ (rec.length : Int) ≤ p.cmd_count := by
  induction hp with
  | init => exact ⟨[], history_init_inv, by simp [main_init]⟩
  | next p q _ hstep ih =>
    obtain ⟨rec, hinv, hle⟩ := ih
    have hcc : p.cmd_count < INT_MAX := by
      by_contra hcc
      simp only [main_iteration, if_neg hcc] at hstep
      cases hstep
    cases hf : fgets MAX_LINE p.stdin with
    | none =>
      simp only [main_iteration, if_pos hcc, hf] at hstep
      cases hstep
    | some rr =>
      obtain ⟨raw, rest⟩ := rr
      obtain ⟨st, hst, hinv1, _, hc⟩ :=
        main_iteration_step sys px p rec raw rest hcc hinv (by omega) hf
      have hq : st = Step.next q := Option.some.inj (hst.symm.trans hstep)
      subst hq
      refine ⟨_, hinv1, ?_⟩
      simp only [Step.proc] at hc
      rw [hc, List.length_append]
      split <;> simp <;> omega

/-- The last rendered entry carries the count and the text recorded last. -/
theorem rendered_getLast (rec : List CString) (line : CString) :
    (rendered (rec ++ [line])).getLast? =
      some (Output.printf_d_s ((rec.length : Int) + 1) line) := by
  have h10 : HISTORY_SIZE.toNat = 10 := by decide
  have hlen : (rec ++ [line]).length = rec.length + 1 := by simp
  rw [List.getLast?_eq_getElem?, rendered_length, hlen, h10,
    rendered_getElem? _ _ (by rw [hlen, h10]; omega), hlen, h10]
  simp only [HISTORY_SIZE]
  have hidx : rec.length + 1 - 10 + (min (rec.length + 1) 10 - 1) = rec.length := by omega
  have hnum : max (1 : Int) (((rec.length + 1 : Nat) : Int) - 10 + 1) +
      ((min (rec.length + 1) 10 - 1 : Nat) : Int) = (rec.length : Int) + 1 := by omega
  rw [hidx, hnum, List.getD_eq_getElem?_getD, List.getElem?_append_right (le_refl _)]
  simp

theorem puts_not_mem_rendered (rec : List CString) (s : CString) :
    Output.puts s ∉ rendered rec := by
  unfold rendered
  intro h
  rw [List.mem_map] at h
  obtain ⟨_, _, h2⟩ := h
  cases h2

theorem fields_ne_nil_line (line t : CString) (more : List CString)
    (h : fields line = t :: more) : line ≠ [] := by
  intro hl
  rw [hl, fields_nil] at h
  cases h

theorem main_iteration_cc {σ : Type} (sys : Sys σ) (px : Procs σ) (p : Proc σ) (st : Step σ)
    (h : main_iteration sys px p = some st) : p.cmd_count < INT_MAX := by
  by_contra hcc
  simp only [main_iteration, if_neg hcc] at h
  cases h


/-- A `run_external` call does not add to the unread input. -/
theorem run_external_stdin {σ : Type} (px : Procs σ) (argv : Argv) (p : Proc σ) (r : Ran σ)
    (h : run_external px argv p = some r) : r.proc.stdin.length ≤ p.stdin.length := by
  unfold run_external at h
  cases hfk : px.fork p.sh.os with
  | some e =>
    rw [hfk] at h
    cases h
    exact le_refl _
  | none =>
    rw [hfk] at h
    simp only at h
    cases h0 : argv 0 with
    | none => rw [h0] at h; cases h
    | some file =>
      cases hl : argv_list argv MAX_ARGS.toNat 0 with
      | none => rw [h0, hl] at h; cases h
      | some args =>
        rw [h0, hl] at h
        simp only at h
        cases hex : px.execvp p.sh.os file args with
        | error e =>
          rw [hex] at h
          simp only at h
          cases hw : px.waitpid p.sh.os with
          | some e2 => rw [hw] at h; cases h; exact le_refl _
          | none => rw [hw] at h; cases h; exact le_refl _
        | ok ending =>
          rw [hex] at h
          simp only at h
          cases hw : px.waitpid p.sh.os with
          | some e2 => rw [hw] at h; cases h; exact input_left_length _ _
          | none =>
            rw [hw] at h
            cases ending with
            | exited status => cases h; exact input_left_length _ _
            | never => cases h; exact input_left_length _ _

/-- Whatever `main_dispatch` does, it does not add to the unread input. -/
theorem main_dispatch_stdin {σ : Type} (sys : Sys σ) (px : Procs σ) (argc : Int)
    (p : Proc σ) (st : Step σ) (h : main_dispatch sys px argc p = some st) :
    st.proc.stdin.length ≤ p.stdin.length := by
  unfold main_dispatch at h
  cases hb : handle_builtin sys argc p.argv p.sh with
  | none => rw [hb] at h; cases h
  | some r =>
    obtain ⟨b, sh2⟩ := r
    rw [hb] at h
    simp only at h
    by_cases h1 : b = -1
    · rw [if_pos h1] at h; cases h; exact le_refl _
    · rw [if_neg h1] at h
      by_cases h2 : b = 1
      · rw [if_pos h2] at h; cases h; exact le_refl _
      · rw [if_neg h2] at h
        by_cases h3 : argc > 0
        · rw [if_pos h3] at h
          cases hr : run_external px p.argv { p with sh := sh2 } with
          | none => rw [hr] at h; cases h
          | some r =>
            have hs := run_external_stdin px p.argv _ r hr
            rw [hr] at h
            cases r with
            | returned q => cases h; exact hs
            | blocked q => cases h; exact hs
        · rw [if_neg h3] at h; cases h; exact le_refl _

/-- The bound on the iterations in `main` is never used up: every iteration
that hands over to the next one has read at least one character. -/
theorem main_loop_finishes {σ : Type} (sys : Sys σ) (px : Procs σ) :
    ∀ (fuel : Nat) (p : Proc σ), p.stdin.length < fuel →
      main_loop sys px fuel p ≠ Outcome.unfinished := by
  intro fuel
  induction fuel with
  | zero => intro p h; omega
  | succ fuel ih =>
    intro p hfuel
    simp only [main_loop]
    cases hit : main_iteration sys px p with
    | none => simp
    | some st =>
      cases st with
      | stop q => simp
      | blocked q => simp
      | next q =>
        simp only
        apply ih
        have hcc := main_iteration_cc sys px p _ hit
        simp only [main_iteration, if_pos hcc] at hit
        cases hf : fgets MAX_LINE p.stdin with
        | none => rw [hf] at hit; cases hit
        | some rr =>
          obtain ⟨raw, rest⟩ := rr
          rw [hf] at hit
          simp only at hit
          have hrest := (fgets_some p.stdin raw rest hf).2
          cases hadd : history_add (print_prompt px (p.cmd_count + 1) p.sh).hist
              (some (List.take (MAX_LINE - 1).toNat (trim_newline raw))) with
          | none => rw [hadd] at hit; cases hit
          | some hist1 =>
            rw [hadd] at hit
            simp only [parse_args_spec] at hit
            have hs : q.stdin.length ≤ rest.length := main_dispatch_stdin sys px _ _ _ hit
            omega


/-! ## Lemmas on lines of text -/

/-- C3: for every line with at most `MAX_ARGS - 1 = 63` fields,
`parse_args(line, argv, MAX_ARGS)` returns, its count is the number of fields
of the line, the argument vector it leaves holds exactly the fields (the
maximal non-empty runs of characters other than space and tab) in left-to-right
order followed by the sentinel, and every token is non-empty and contains
neither space nor tab. -/
theorem parse_args_tokens (line : CString) (argv : Argv)
    (hk : ((fields line).length : Int) ≤ MAX_ARGS - 1) :
    parse_args line argv MAX_ARGS =
        some (((fields line).length : Int), argv_after argv (fields line)) ∧
      IsArgv (fields line) ((fields line).length : Int) (argv_after argv (fields line)) ∧
      ∀ t ∈ fields line, t ≠ [] ∧ ∀ c ∈ t, c ≠ ' ' ∧ c ≠ '\t' := by
  have htake : (fields line).take (MAX_ARGS - 1).toNat = fields line := by
    apply List.take_of_length_le
    omega
  refine ⟨?_, isArgv_argv_after argv (fields line), fields_mem line⟩
  rw [parse_args_spec, htake]

/-- C3, witness: `"  ls   -la  "` yields the tokens `ls`, `-la` and count 2. -/
theorem parse_args_tokens_witness :
    ((fields "  ls   -la  ".toList).length : Int) ≤ MAX_ARGS - 1 ∧
    parse_args "  ls   -la  ".toList (fun _ => none) MAX_ARGS =
      some (2, argv_after (fun _ => none) ["ls".toList, "-la".toList]) ∧
    IsArgv ["ls".toList, "-la".toList] 2
      (argv_after (fun _ => none) ["ls".toList, "-la".toList]) := by
  have hf : fields "  ls   -la  ".toList = ["ls".toList, "-la".toList] := by decide
  have hk : ((fields "  ls   -la  ".toList).length : Int) ≤ MAX_ARGS - 1 := by decide
  have h := parse_args_tokens "  ls   -la  ".toList (fun _ => none) hk
  rw [hf] at h
  exact ⟨hk, h.1, h.2.1⟩

/-- C4: for every line (and every capacity `max_args ≥ 2`, in particular
`MAX_ARGS`), `parse_args` returns; its count is 0 if and only if the line is
empty or all its characters are spaces or tabs; and when the count is 0 the
first slot of the argument vector holds the end-of-arguments sentinel. -/
theorem parse_args_zero_iff (line : CString) (argv : Argv) (max_args : Int)
    (hmax : 2 ≤ max_args) :
    (∃ argc argv1, parse_args line argv max_args = some (argc, argv1) ∧
      (argc = 0 → argv1 0 = none)) ∧
    ((parse_args line argv max_args).map Prod.fst = some 0 ↔
      ∀ c ∈ line, c = ' ' ∨ c = '\t') := by
  rw [parse_args_spec]
  constructor
  · refine ⟨_, _, rfl, ?_⟩
    intro h0
    have h1 : ((fields line).take (max_args - 1).toNat).length = 0 := by exact_mod_cast h0
    generalize (fields line).take (max_args - 1).toNat = ts at h1
    simp [argv_after, h1]
  · rw [← fields_eq_nil_iff]
    obtain ⟨k, hk⟩ : ∃ k : Nat, (max_args - 1).toNat = k + 1 :=
      ⟨(max_args - 1).toNat - 1, by omega⟩
    rw [hk]
    cases hf : fields line with
    | nil => simp
    | cons t ts =>
      simp only [List.take_succ_cons, List.length_cons, Option.map_some', Option.some.injEq]
      constructor
      · intro h; exfalso; omega
      · intro h; exact absurd h (by simp)

/-- C4, witness: the empty line and `"   "` both yield count 0. -/
theorem parse_args_zero_iff_witness :
    (2 : Int) ≤ MAX_ARGS ∧
    (parse_args "".toList (fun _ => none) MAX_ARGS).map Prod.fst = some 0 ∧
    (parse_args "   ".toList (fun _ => none) MAX_ARGS).map Prod.fst = some 0 :=
  ⟨by decide,
   (parse_args_zero_iff "".toList (fun _ => none) MAX_ARGS (by decide)).2.mpr (by decide),
   (parse_args_zero_iff "   ".toList (fun _ => none) MAX_ARGS (by decide)).2.mpr (by decide)⟩

/-- C5: for every line and every `max_args ≥ 1`, `parse_args` returns (it
never rejects); with `k` the number of fields of the line, the count is
`min(k, max_args - 1)`, the tokens are the first `min(k, max_args - 1)` fields
in order, slot `argv[count]` holds the sentinel, and no slot at an index
`≥ max_args` is written; with `max_args = MAX_ARGS` the count lies between 0
and 63. -/
theorem parse_args_truncates (line : CString) (argv : Argv) (max_args : Int)
    (hmax : 1 ≤ max_args) :
    parse_args line argv max_args =
        some (min ((fields line).length : Int) (max_args - 1),
          argv_after argv ((fields line).take (max_args - 1).toNat)) ∧
      IsArgv ((fields line).take (max_args - 1).toNat)
        (min ((fields line).length : Int) (max_args - 1))
        (argv_after argv ((fields line).take (max_args - 1).toNat)) ∧
      (∀ j : Nat, max_args ≤ (j : Int) →
        argv_after argv ((fields line).take (max_args - 1).toNat) j = argv j) ∧
      (max_args = MAX_ARGS →
        0 ≤ min ((fields line).length : Int) (max_args - 1) ∧
        min ((fields line).length : Int) (max_args - 1) ≤ 63) := by
  have hlen : ((((fields line).take (max_args - 1).toNat).length : Nat) : Int) =
      min ((fields line).length : Int) (max_args - 1) := by
    rw [List.length_take]
    omega
  refine ⟨?_, ?_, ?_, ?_⟩
  · rw [parse_args_spec, hlen]
  · rw [← hlen]
    exact isArgv_argv_after argv _
  · intro j hj
    have h1 : ¬ (j < ((fields line).take (max_args - 1).toNat).length) := by omega
    have h2 : ¬ (j = ((fields line).take (max_args - 1).toNat).length) := by omega
    simp only [argv_after, if_neg h1, if_neg h2]
  · intro h
    subst h
    simp only [MAX_ARGS]
    omega

/-- C5, witness: with `max_args = 3` the line `a b c d` yields count 2 and the
tokens `a`, `b`; the sentinel is in slot 2 and slot 3 keeps its content. -/
theorem parse_args_truncates_witness :
    (1 : Int) ≤ 3 ∧
    parse_args "a b c d".toList (fun _ => some "old".toList) 3 =
      some (2, argv_after (fun _ => some "old".toList) ["a".toList, "b".toList]) ∧
    argv_after (fun _ => some "old".toList) ["a".toList, "b".toList] 2 = none ∧
    argv_after (fun _ => some "old".toList) ["a".toList, "b".toList] 3 = some "old".toList := by
  have hf : fields "a b c d".toList = ["a".toList, "b".toList, "c".toList, "d".toList] := by
    decide
  have h := parse_args_truncates "a b c d".toList (fun _ => some "old".toList) 3 (by decide)
  rw [hf] at h
  exact ⟨by decide, h.1, by decide, by decide⟩

/-! ## History buffer: the claims -/

/-- C1 (as amended): for every sequence of `N` non-empty lines appended with
`history_add` to the initially empty history (`N ≤ INT_MAX`, so that the
counter does not overflow), every call returns and `history_print` renders
exactly `min(N, C)` entries, `C = HISTORY_SIZE = 10`, oldest first; the `i`-th
entry carries the number `max(1, N-C+1) + i` and the first
`MAX_LINE - 1 = 1023` characters of the `(max(0, N-C) + i + 1)`-th appended
line (the whole line when it is no longer than that); for `N = 0` only the
"No history." notice is rendered. -/
theorem history_print_after_adds (lines : List CString) (hne : ∀ l ∈ lines, l ≠ [])
    (hN : (lines.length : Int) ≤ INT_MAX) :
    (history_add_all history_init (lines.map some)).bind history_print =
        some (if lines.length = 0 then [Output.puts "No history.".toList]
          else rendered (lines.map fun l => l.take 1023)) ∧
      (rendered (lines.map fun l => l.take 1023)).length = min lines.length 10 ∧
      ∀ i : Nat, i < min lines.length 10 →
        (rendered (lines.map fun l => l.take 1023))[i]? =
          some (Output.printf_d_s (max 1 ((lines.length : Int) - 10 + 1) + (i : Int))
            ((lines.getD (lines.length - 10 + i) []).take 1023)) := by
  have hrec := recorded_map_some lines hne
  have h1023 : (MAX_LINE - 1).toNat = 1023 := by decide
  have h10 : HISTORY_SIZE.toNat = 10 := by decide
  rw [h1023] at hrec
  refine ⟨?_, ?_, ?_⟩
  · have h := history_render_spec (lines.map some) (by rw [hrec]; simpa using hN)
    rw [hrec] at h
    simpa using h
  · rw [rendered_length, h10, List.length_map]
  · intro i hi
    have hlt : lines.length - 10 + i < lines.length := by omega
    rw [rendered_getElem? _ i (by rw [h10, List.length_map]; exact hi), List.length_map, h10]
    simp only [HISTORY_SIZE]
    congr 2
    rw [List.getD_eq_getElem?_getD, List.getD_eq_getElem?_getD, List.getElem?_map,
      List.getElem?_eq_getElem hlt]
    rfl

/-- C1, witness: appending `cmd1` .. `cmd12` renders the numbers 3 .. 12 with
the texts `cmd3` .. `cmd12`. -/
theorem history_print_after_adds_witness :
    (history_add_all history_init
        (["cmd1", "cmd2", "cmd3", "cmd4", "cmd5", "cmd6", "cmd7", "cmd8", "cmd9", "cmd10",
          "cmd11", "cmd12"].map fun s => some s.toList)).bind history_print =
      some [Output.printf_d_s 3 "cmd3".toList, Output.printf_d_s 4 "cmd4".toList,
        Output.printf_d_s 5 "cmd5".toList, Output.printf_d_s 6 "cmd6".toList,
        Output.printf_d_s 7 "cmd7".toList, Output.printf_d_s 8 "cmd8".toList,
        Output.printf_d_s 9 "cmd9".toList, Output.printf_d_s 10 "cmd10".toList,
        Output.printf_d_s 11 "cmd11".toList, Output.printf_d_s 12 "cmd12".toList] := by
  have h := (history_print_after_adds
    (["cmd1", "cmd2", "cmd3", "cmd4", "cmd5", "cmd6", "cmd7", "cmd8", "cmd9", "cmd10",
      "cmd11", "cmd12"].map fun s => s.toList) (by decide) (by decide)).1
  rw [List.map_map] at h
  exact h.trans (by decide)

/-- C1, counterexample to the claim as stated: a line of 1024 characters is
rendered with its first 1023 characters, not with its text. -/
theorem history_print_text_counterexample :
    (history_add_all history_init [some (List.replicate 1024 'a')]).bind history_print =
        some [Output.printf_d_s 1 (List.replicate 1023 'a')] ∧
      List.replicate 1023 'a' ≠ List.replicate 1024 'a' := by
  constructor
  · exact render_long_line 1023 (le_refl _)
  · intro h
    have h2 := congrArg List.length h
    rw [List.length_replicate, List.length_replicate] at h2
    exact absurd h2 (by decide)

/-- C2 (as amended): for every history state, `history_add` with the empty
line leaves `history_count`, `history_next` and every slot unchanged. -/
theorem history_add_empty (h : History) : history_add h (some []) = some h := rfl

/-- C2, counterexample to the claim as stated: a line of three spaces is
recorded in slot 0 of the empty history, and both counters become 1. -/
theorem history_add_whitespace_counterexample :
    history_add history_init (some "   ".toList) =
        some { history := "   ".toList :: List.replicate 9 [],
               history_count := 1, history_next := 1 } ∧
      history_add history_init (some "   ".toList) ≠ some history_init := by
  decide

/-- C10: the history invariant.  A sequence of `history_add` calls from the
initial empty state returns as long as the counter stays within `int`, and in
every state `h` it reaches, with `N` the number of lines recorded (as
`history_add` stores them): `0 ≤ history_next < HISTORY_SIZE`,
`history_next = history_count mod HISTORY_SIZE`, `history_count = N`; the
array has `HISTORY_SIZE` slots, the `min(N, HISTORY_SIZE)` most recently
recorded lines are in it (number `k`, counted from 0, in slot
`k mod HISTORY_SIZE`) and the other slots were never written; and when
`history_count ≥ HISTORY_SIZE` the slot at `history_next` holds the line
recorded `HISTORY_SIZE` appends ago. -/
theorem history_reachable_invariant (lines : List (Option CString)) :
    (((recorded lines).length : Int) ≤ INT_MAX →
      ∃ h, history_add_all history_init lines = some h) ∧
    ∀ h, history_add_all history_init lines = some h →
      0 ≤ h.history_next ∧ h.history_next < HISTORY_SIZE ∧
      h.history_next = h.history_count % HISTORY_SIZE ∧
      h.history_count = ((recorded lines).length : Int) ∧
      h.history.length = HISTORY_SIZE.toNat ∧
      (∀ k : Nat, k < (recorded lines).length →
        (recorded lines).length ≤ k + HISTORY_SIZE.toNat →
        history_slot h ((k : Int) % HISTORY_SIZE) = (recorded lines)[k]?) ∧
      (∀ j : Nat, (recorded lines).length ≤ j → (j : Int) < HISTORY_SIZE →
        history_slot h (j : Int) = some []) ∧
      (HISTORY_SIZE ≤ h.history_count →
        history_slot h h.history_next =
          (recorded lines)[(recorded lines).length - HISTORY_SIZE.toNat]?) := by
  have h10 : HISTORY_SIZE.toNat = 10 := by decide
  constructor
  · intro hb
    exact history_add_all_defined lines history_init [] history_init_inv (by simpa using hb)
  · intro h hadd
    have hinv := history_add_all_inv lines history_init h [] history_init_inv hadd
    rw [List.nil_append] at hinv
    have hc := hinv.count
    have hn := hinv.next
    have hslot : ∀ m : Nat, m < 10 → history_slot h (m : Int) = h.history[m]? := by
      intro m hm
      simp only [history_slot, HISTORY_SIZE]
      rw [if_pos (by omega), Int.toNat_ofNat]
    simp only [HISTORY_SIZE, h10]
    refine ⟨by omega, by omega, by omega, hc, hinv.size, ?_, ?_, ?_⟩
    · intro k hk1 hk2
      have hcast : (k : Int) % 10 = ((k % 10 : Nat) : Int) := by omega
      rw [hcast, hslot _ (by omega)]
      exact hinv.recent k hk1 hk2
    · intro j hj1 hj2
      rw [hslot j (by omega)]
      exact hinv.unused j hj1 (by omega)
    · intro hfull
      have hk := hinv.recent ((recorded lines).length - 10) (by omega) (by omega)
      have hcast : h.history_next = ((((recorded lines).length - 10) % 10 : Nat) : Int) := by
        omega
      rw [hcast, hslot _ (by omega)]
      exact hk

/-- C10, witness: after `cmd1` .. `cmd12` (and an empty line, which is not
recorded) the counter is 12, the cursor is 2 and slot 2 holds `cmd3`, the
oldest retained line. -/
theorem history_reachable_invariant_witness :
    history_add_all history_init
        (["cmd1", "cmd2", "cmd3", "cmd4", "cmd5", "", "cmd6", "cmd7", "cmd8", "cmd9", "cmd10",
          "cmd11", "cmd12"].map fun s => some s.toList) =
      some (History.mk (["cmd11", "cmd12", "cmd3", "cmd4", "cmd5", "cmd6", "cmd7", "cmd8",
        "cmd9", "cmd10"].map String.toList) 12 2) ∧
    history_slot (History.mk (["cmd11", "cmd12", "cmd3", "cmd4", "cmd5", "cmd6", "cmd7", "cmd8",
        "cmd9", "cmd10"].map String.toList) 12 2) 2 = some "cmd3".toList := by
  have hr : history_add_all history_init
        (["cmd1", "cmd2", "cmd3", "cmd4", "cmd5", "", "cmd6", "cmd7", "cmd8", "cmd9", "cmd10",
          "cmd11", "cmd12"].map fun s => some s.toList) =
      some (History.mk (["cmd11", "cmd12", "cmd3", "cmd4", "cmd5", "cmd6", "cmd7", "cmd8",
        "cmd9", "cmd10"].map String.toList) 12 2) := by decide
  have h := (history_reachable_invariant _).2 _ hr
  exact ⟨hr, (h.2.2.2.2.2.2.2 (by decide)).trans (by decide)⟩

/-! ## Builtin dispatcher: the claims -/

/-- C6: for every non-empty argument vector whose first token is exactly
`exit`, whatever follows it, `handle_builtin` returns -1 (terminate) and leaves
the history, the process state (working directory) and the output as they
were. -/
theorem handle_builtin_exit {σ : Type} (sys : Sys σ) (argc : Int) (argv : Argv) (w : Shell σ)
    (hne : argc ≠ 0) (h0 : argv 0 = some "exit".toList) :
    handle_builtin sys argc argv w = some (-1, w) := by
  simp [handle_builtin, hne, h0]

/-- C6, witness: `exit now 1` terminates and changes nothing. -/
theorem handle_builtin_exit_witness :
    handle_builtin sys_home_u 3
        (argv_after (fun _ => none) ["exit".toList, "now".toList, "1".toList])
        { hist := history_init, os := "/tmp".toList, out := [] } =
      some (-1, { hist := history_init, os := "/tmp".toList, out := [] }) :=
  handle_builtin_exit sys_home_u 3 _ _ (by decide) (by decide)

/-- C7: for every argument vector (tokens `ts`), `handle_builtin` returns 0
(delegate) if and only if the vector is non-empty and its first token is none
of `exit`, `cd`, `help`, `history`, compared exactly; the state is then
untouched; an empty vector returns 1 (handled). -/
theorem handle_builtin_delegate_iff {σ : Type} (sys : Sys σ) (ts : List CString) (argc : Int)
    (argv : Argv) (w : Shell σ) (hv : IsArgv ts argc argv) :
    ((handle_builtin sys argc argv w).map Prod.fst = some 0 ↔
      ∃ t rest, ts = t :: rest ∧ t ≠ "exit".toList ∧ t ≠ "cd".toList ∧
        t ≠ "help".toList ∧ t ≠ "history".toList) ∧
    ((handle_builtin sys argc argv w).map Prod.fst = some 0 →
      handle_builtin sys argc argv w = some (0, w)) ∧
    (ts = [] → handle_builtin sys argc argv w = some (1, w)) := by
  obtain ⟨hc, hslots, _⟩ := hv
  cases ts with
  | nil =>
    have h0 : argc = 0 := by simpa using hc
    simp [handle_builtin, h0]
  | cons t rest =>
    have hne : ¬ (argc = 0) := by
      rw [hc]; simp only [List.length_cons]; omega
    have h0 : argv 0 = some t := by
      rw [hslots 0 (by simp)]; simp
    have hrhs : ∀ p : Prop, ((∃ t1 rest1, t :: rest = t1 :: rest1 ∧ t1 ≠ "exit".toList ∧
        t1 ≠ "cd".toList ∧ t1 ≠ "help".toList ∧ t1 ≠ "history".toList) ↔ p) ↔
        ((t ≠ "exit".toList ∧ t ≠ "cd".toList ∧ t ≠ "help".toList ∧
          t ≠ "history".toList) ↔ p) := by
      intro p
      have : (∃ t1 rest1, t :: rest = t1 :: rest1 ∧ t1 ≠ "exit".toList ∧
          t1 ≠ "cd".toList ∧ t1 ≠ "help".toList ∧ t1 ≠ "history".toList) ↔
          (t ≠ "exit".toList ∧ t ≠ "cd".toList ∧ t ≠ "help".toList ∧
            t ≠ "history".toList) := by
        constructor
        · rintro ⟨t1, rest1, heq, h⟩
          cases heq
          exact h
        · intro h
          exact ⟨t, rest, rfl, h⟩
      rw [this]
    have hfalse : ∀ (r : Option (Int × Shell σ)), r.map Prod.fst ≠ some 0 →
        ¬ (t ≠ "exit".toList ∧ t ≠ "cd".toList ∧ t ≠ "help".toList ∧ t ≠ "history".toList) →
        (r.map Prod.fst = some 0 ↔ ∃ t1 rest1, t :: rest = t1 :: rest1 ∧ t1 ≠ "exit".toList ∧
          t1 ≠ "cd".toList ∧ t1 ≠ "help".toList ∧ t1 ≠ "history".toList) ∧
        (r.map Prod.fst = some 0 → r = some (0, w)) ∧ (t :: rest = [] → r = some (1, w)) := by
      intro r hr hn
      refine ⟨?_, fun h => absurd h hr, fun h => by cases h⟩
      rw [Iff.comm, hrhs]
      exact ⟨fun h => absurd h hn, fun h => absurd h hr⟩
    simp only [handle_builtin, if_neg hne, h0]
    by_cases h1 : t = "exit".toList
    · rw [if_pos h1]
      exact hfalse _ (by simp) (fun h => h.1 h1)
    · rw [if_neg h1]
      by_cases h2 : t = "cd".toList
      · rw [if_pos h2]
        refine hfalse _ ?_ (fun h => h.2.1 h2)
        cases sys.chdir w.os _ <;> simp
      · rw [if_neg h2]
        by_cases h3 : t = "help".toList
        · rw [if_pos h3]
          exact hfalse _ (by simp) (fun h => h.2.2.1 h3)
        · rw [if_neg h3]
          by_cases h4 : t = "history".toList
          · rw [if_pos h4]
            refine hfalse _ ?_ (fun h => h.2.2.2 h4)
            cases history_print w.hist <;> simp
          · rw [if_neg h4]
            refine ⟨?_, fun _ => rfl, fun h => by cases h⟩
            rw [Iff.comm, hrhs]
            exact ⟨fun _ => rfl, fun _ => ⟨h1, h2, h3, h4⟩⟩

/-- C7, witness: `EXIT` is not a builtin (the comparison is case-sensitive),
so the vector `EXIT` is delegated. -/
theorem handle_builtin_delegate_iff_witness :
    IsArgv ["EXIT".toList] 1 (argv_after (fun _ => none) ["EXIT".toList]) ∧
    (handle_builtin sys_home_u 1 (argv_after (fun _ => none) ["EXIT".toList])
        { hist := history_init, os := "/tmp".toList, out := [] }).map Prod.fst = some 0 :=
  ⟨isArgv_argv_after _ _,
   (handle_builtin_delegate_iff sys_home_u ["EXIT".toList] 1 _ _
      (isArgv_argv_after _ _)).1.mpr ⟨_, _, rfl, by decide, by decide, by decide, by decide⟩⟩

/-- C8: for every argument vector whose first token is `cd` and every
environment, the directory handed to `chdir` is the second token when the
vector has at least two tokens (further tokens are ignored), otherwise the
value of `HOME` when it is set, otherwise `"."`; when `chdir` succeeds the
process state (the working directory) is the one that call produced, nothing
else changes, and the result is 1 (handled). -/
theorem handle_builtin_cd_target {σ : Type} (sys : Sys σ) (rest : List CString) (argc : Int)
    (argv : Argv) (w : Shell σ) (os1 : σ) (hv : IsArgv ("cd".toList :: rest) argc argv)
    (hok : sys.chdir w.os (cd_target (sys.getenv "HOME".toList) ("cd".toList :: rest)) =
      Except.ok os1) :
    handle_builtin sys argc argv w = some (1, { hist := w.hist, os := os1, out := w.out }) := by
  rw [handle_builtin_cd_eq sys rest argc argv w hv, hok]

/-- C8, witness: `cd` with `HOME = /home/u` changes the working directory from
`/tmp` to `/home/u` and returns 1. -/
theorem handle_builtin_cd_target_witness :
    handle_builtin sys_home_u 1 (argv_after (fun _ => none) ["cd".toList])
        { hist := history_init, os := "/tmp".toList, out := [] } =
      some (1, { hist := history_init, os := "/home/u".toList, out := [] }) :=
  handle_builtin_cd_target sys_home_u [] 1 _ _ "/home/u".toList (isArgv_argv_after _ _) rfl

/-- C9: for every argument vector whose first token is `cd`, `handle_builtin`
returns 1 (handled), whether `chdir` succeeds or fails, never -1; and when
`chdir` fails with error `e` the error is reported with `perror("cd")` while
the process state (the working directory) and the history stay as they
were. -/
theorem handle_builtin_cd_failure {σ : Type} (sys : Sys σ) (rest : List CString) (argc : Int)
    (argv : Argv) (w : Shell σ) (hv : IsArgv ("cd".toList :: rest) argc argv) :
    (handle_builtin sys argc argv w).map Prod.fst = some 1 ∧
    ∀ e, sys.chdir w.os (cd_target (sys.getenv "HOME".toList) ("cd".toList :: rest)) =
        Except.error e →
      handle_builtin sys argc argv w =
        some (1, { hist := w.hist, os := w.os,
                   out := w.out ++ [Output.perror "cd".toList e] }) := by
  rw [handle_builtin_cd_eq sys rest argc argv w hv]
  constructor
  · cases sys.chdir w.os _ <;> rfl
  · intro e he
    rw [he]

/-- C9, witness: `cd /nonexistent` reports the error, keeps the working
directory `/tmp` and the history, and returns 1. -/
theorem handle_builtin_cd_failure_witness :
    handle_builtin sys_home_u 2 (argv_after (fun _ => none) ["cd".toList, "/nonexistent".toList])
        { hist := history_init, os := "/tmp".toList, out := [] } =
      some (1, { hist := history_init, os := "/tmp".toList,
                 out := [Output.perror "cd".toList 2] }) :=
  (handle_builtin_cd_failure sys_home_u ["/nonexistent".toList] 2 _ _
    (isArgv_argv_after _ _)).2 2 rfl

/-! ## History buffer and tokenizer: further claims -/

/-- C11 (as amended): for every history state whose cursor is inside the
array (`0 ≤ history_next < HISTORY_SIZE`, ten slots) and whose counter is below
`INT_MAX`, and for every non-empty line, `history_add` returns; it stores in
the slot at the old cursor the first `MAX_LINE - 1 = 1023` characters of the
line (the whole line when it has no more), leaves every other slot unchanged,
sets the cursor to `(old cursor + 1) mod HISTORY_SIZE` and the counter to the
old counter plus 1. -/
theorem history_add_stores (h : History) (line : CString) (hne : line ≠ [])
    (hsize : h.history.length = HISTORY_SIZE.toNat)
    (hnext : 0 ≤ h.history_next ∧ h.history_next < HISTORY_SIZE)
    (hcount : h.history_count < INT_MAX) :
    history_add h (some line) =
        some { history := h.history.set h.history_next.toNat (line.take 1023),
               history_count := h.history_count + 1,
               history_next := (h.history_next + 1) % HISTORY_SIZE } ∧
      (h.history.set h.history_next.toNat (line.take 1023))[h.history_next.toNat]? =
        some (line.take 1023) ∧
      (∀ j : Nat, j ≠ h.history_next.toNat →
        (h.history.set h.history_next.toNat (line.take 1023))[j]? = h.history[j]?) ∧
      (line.length ≤ 1023 → line.take 1023 = line) := by
  have h10 : HISTORY_SIZE.toNat = 10 := by decide
  have h1023 : (MAX_LINE - 1).toNat = 1023 := by decide
  simp only [HISTORY_SIZE] at hnext
  refine ⟨?_, ?_, ?_, ?_⟩
  · cases line with
    | nil => exact absurd rfl hne
    | cons c cs =>
      have hg : 0 ≤ h.history_next ∧ h.history_next < HISTORY_SIZE ∧
          h.history_count < INT_MAX := ⟨hnext.1, by simp only [HISTORY_SIZE]; exact hnext.2, hcount⟩
      simp only [history_add, if_pos hg, h1023]
      congr 2
      simp only [HISTORY_SIZE]
      split <;> omega
  · rw [List.getElem?_set_self (by rw [hsize, h10]; omega)]
  · intro j hj
    rw [List.getElem?_set_ne (fun h2 => hj h2.symm)]
  · intro hlen
    exact List.take_of_length_le hlen

/-- C11, witness: `ls -l` appended to the empty history. -/
theorem history_add_stores_witness :
    history_add history_init (some "ls -l".toList) =
      some (History.mk ("ls -l".toList :: List.replicate 9 []) 1 1) := by
  have h := (history_add_stores history_init "ls -l".toList (by decide) (by decide)
    (by decide) (by decide)).1
  exact h.trans (by decide)

/-- C11, counterexample to the claim as stated: in the history state with
`history_count = INT_MAX` (cursor 0, ten empty slots) the counter cannot become
the old counter plus 1; the increment overflows `int`, which is undefined. -/
theorem history_add_overflow_counterexample :
    history_add (History.mk (List.replicate 10 []) INT_MAX 0) (some "a".toList) = none := by
  decide

/-- C17: round trip of the tokenizer.  For every list `ts` of at most
`MAX_ARGS - 1 = 63` tokens, each non-empty and free of space, tab and NUL, and
every choice of separator strings `seps` of spaces and tabs (one in front, one
behind, one between any two tokens, those between tokens non-empty),
`parse_args` on the joined line returns exactly `ts` and its length; and for
any line, joining its tokens with single spaces and tokenizing again gives the
same result as tokenizing the line. -/
theorem parse_args_join_round_trip (ts seps : List CString) (argv : Argv)
    (hlen : (ts.length : Int) ≤ MAX_ARGS - 1)
    (hseps : seps.length = ts.length + 1)
    (hdel : ∀ s ∈ seps, ∀ c ∈ s, c = ' ' ∨ c = '\t')
    (hinner : ∀ i : Nat, 0 < i → i < ts.length → seps[i]? ≠ some [])
    (htok : ∀ t ∈ ts, t ≠ [] ∧ ∀ c ∈ t, c ≠ ' ' ∧ c ≠ '\t' ∧ c ≠ '\x00') :
    parse_args (join_tokens seps ts) argv MAX_ARGS =
        some ((ts.length : Int), argv_after argv ts) ∧
      IsArgv ts (ts.length : Int) (argv_after argv ts) ∧
      ∀ (line : CString) (argv2 : Argv),
        parse_args (List.intercalate [' '] ((fields line).take (MAX_ARGS - 1).toNat)) argv2
          MAX_ARGS = parse_args line argv2 MAX_ARGS := by
  have hf : fields (join_tokens seps ts) = ts :=
    fields_join_tokens ts seps hseps
      (fun s hs c hc => (isDelim_iff c).mpr (hdel s hs c hc)) hinner
      (fun t ht => ⟨(htok t ht).1, fun c hc =>
        not_isDelim_of_ne c ⟨((htok t ht).2 c hc).1, ((htok t ht).2 c hc).2.1⟩⟩)
  refine ⟨?_, isArgv_argv_after argv ts, ?_⟩
  · rw [parse_args_spec, hf, List.take_of_length_le (by omega)]
  · intro line argv2
    have hgood : ∀ t ∈ (fields line).take (MAX_ARGS - 1).toNat,
        t ≠ [] ∧ ∀ c ∈ t, ¬ isDelim c = true := by
      intro t ht
      have hm := fields_mem line t (List.mem_of_mem_take ht)
      exact ⟨hm.1, fun c hc => not_isDelim_of_ne c (hm.2 c hc)⟩
    rw [parse_args_spec, parse_args_spec, fields_intercalate _ hgood, List.take_take,
      min_self]

/-- C17, witness: the tokens `ls`, `-la`, `/tmp` joined with a leading tab,
two spaces, a tab and a space, and a trailing space. -/
theorem parse_args_join_round_trip_witness :
    join_tokens ["\t".toList, "  ".toList, "\t ".toList, " ".toList]
        ["ls".toList, "-la".toList, "/tmp".toList] = "\tls  -la\t /tmp ".toList ∧
    parse_args "\tls  -la\t /tmp ".toList (fun _ => none) MAX_ARGS =
      some (3, argv_after (fun _ => none) ["ls".toList, "-la".toList, "/tmp".toList]) := by
  have h := (parse_args_join_round_trip ["ls".toList, "-la".toList, "/tmp".toList]
    ["\t".toList, "  ".toList, "\t ".toList, " ".toList] (fun _ => none)
    (by decide) (by decide) (by decide)
    (by
      intro i h1 h2
      have h3 : i = 1 ∨ i = 2 := by
        simp only [List.length_cons, List.length_nil] at h2
        omega
      rcases h3 with h3 | h3 <;> subst h3 <;> decide)
    (by decide)).1
  exact ⟨by decide, h⟩

/-! ## Command loop: the claims -/

/-- C12: in every run of the loop, an iteration that reads a line which is
non-empty after `trim_newline` is defined as long as `cmd_count` is below
`INT_MAX`, and however it ends (`break`, next iteration, or waiting in
`run_external`) the history has received exactly one new entry, whose text is
the untokenized line: `history_add` is applied to the line before it is
tokenized, and the dispatch runs in the state that already holds the entry and
does not change the history. -/
theorem main_iteration_records {σ : Type} (sys : Sys σ) (px : Procs σ) (os : σ)
    (stdin : List Char) (argv : Argv) (p : Proc σ) (raw : CString) (rest : List Char)
    (hreach : Reachable sys px os stdin argv p)
    (hf : fgets MAX_LINE p.stdin = some (raw, rest))
    (hne : trim_newline raw ≠ []) :
    (p.cmd_count < INT_MAX → ∃ st, main_iteration sys px p = some st) ∧
    ∀ st, main_iteration sys px p = some st →
      ∃ rec hist1, HistoryInv p.sh.hist rec ∧
        history_add p.sh.hist (some (trim_newline raw)) = some hist1 ∧
        HistoryInv hist1 (rec ++ [trim_newline raw]) ∧
        hist1.history_count = p.sh.hist.history_count + 1 ∧
        main_dispatch sys px
          ((((fields (trim_newline raw)).take (MAX_ARGS - 1).toNat).length : Nat) : Int)
          (dispatch_state px p hist1 (trim_newline raw) rest) = some st ∧
        st.proc.sh.hist = hist1 := by
  obtain ⟨rec, hinv, hle⟩ := reachable_inv sys px os stdin argv p hreach
  have key : p.cmd_count < INT_MAX → ∃ st hist1, main_iteration sys px p = some st ∧
      history_add p.sh.hist (some (trim_newline raw)) = some hist1 ∧
      HistoryInv hist1 (rec ++ [trim_newline raw]) ∧
      hist1.history_count = p.sh.hist.history_count + 1 ∧
      main_dispatch sys px
        ((((fields (trim_newline raw)).take (MAX_ARGS - 1).toNat).length : Nat) : Int)
        (dispatch_state px p hist1 (trim_newline raw) rest) = some st ∧
      st.proc.sh.hist = hist1 := by
    intro hcc
    obtain ⟨hist1, hadd, hinv1, hrec1, hiter⟩ :=
      main_iteration_line sys px p rec raw rest hcc hinv (by omega) hf
    rw [hrec1, if_neg hne] at hinv1
    obtain ⟨st, hst, hh, _, _⟩ := main_dispatch_frame sys px
      ((fields (trim_newline raw)).take (MAX_ARGS - 1).toNat) _
      (dispatch_state px p hist1 (trim_newline raw) rest) _
      (isArgv_argv_after p.argv _) (take_length_lt_max_args _) hinv1
    refine ⟨st, hist1, hiter.trans hst, hadd, hinv1, ?_, hst, hh⟩
    rw [hinv1.count, hinv.count]
    simp
  constructor
  · intro hcc
    obtain ⟨st, _, hst, _⟩ := key hcc
    exact ⟨st, hst⟩
  · intro st hst
    obtain ⟨st2, hist1, hst2, hadd, hinv1, hcount, hd, hh⟩ :=
      key (main_iteration_cc sys px p st hst)
    have heq : st2 = st := Option.some.inj (hst2.symm.trans hst)
    subst heq
    exact ⟨rec, hist1, hinv, hadd, hinv1, hcount, hd, hh⟩

/-- C12, witness: the line `  ls  -l ` (with its blanks) is recorded as entry 1
although the program cannot be launched. -/
theorem main_iteration_records_witness :
    (main_iteration sys_home_u procs_home_u
        (main_init "/tmp".toList "  ls  -l \nexit\n".toList (fun _ => none))).map
      (fun st => st.proc.sh.hist) =
      some (History.mk ("  ls  -l ".toList :: List.replicate 9 []) 1 1) := by
  have h := main_iteration_records sys_home_u procs_home_u "/tmp".toList
    "  ls  -l \nexit\n".toList (fun _ => none)
    (main_init "/tmp".toList "  ls  -l \nexit\n".toList (fun _ => none))
    "  ls  -l \n".toList "exit\n".toList Reachable.init (by decide) (by decide)
  obtain ⟨st, hst⟩ := h.1 (by decide)
  obtain ⟨_, hist1, _, hadd, _, _, _, hh⟩ := h.2 st hst
  have hval : history_add history_init (some "  ls  -l ".toList) =
      some (History.mk ("  ls  -l ".toList :: List.replicate 9 []) 1 1) := by decide
  have heq : hist1 = History.mk ("  ls  -l ".toList :: List.replicate 9 []) 1 1 :=
    Option.some.inj (hadd.symm.trans hval)
  rw [hst, Option.map_some', hh, heq]

/-- C14: failures of `run_external` on a non-empty argument vector `t :: rest`,
with the outcomes of `fork`, `execvp` and `waitpid` given by the operating
system.  (1) When `fork` fails the failure is reported with `perror("fork")`
and the call returns without `waitpid`.  (2) When the child is created but
`execvp` returns, the child reports with `perror("execvp")` and terminates
with `_exit(127)`; the parent's `waitpid` yields status 127, or fails and is
reported.  (3) When `waitpid` fails the failure is reported with
`perror("waitpid")` (the program the child executes may have taken input in
the meantime).  (4) In every one of these cases `run_external` returns,
and an iteration that delegated the vector goes on to the next iteration. -/
theorem run_external_failures {σ : Type} (px : Procs σ) (t : CString) (rest : List CString)
    (argc : Int) (argv : Argv) (p : Proc σ) (hv : IsArgv (t :: rest) argc argv)
    (hlen : (((t :: rest).length : Nat) : Int) < MAX_ARGS) :
    (∀ e, px.fork p.sh.os = some e →
      run_external px argv p = some (Ran.returned { p with
        sh := { p.sh with out := p.sh.out ++ [Output.perror "fork".toList e] },
        calls := p.calls ++ [Call.fork (some e)] })) ∧
    (∀ e, px.fork p.sh.os = none → px.execvp p.sh.os t (t :: rest) = Except.error e →
      (px.waitpid p.sh.os = none →
        run_external px argv p = some (Ran.returned { p with
          sh := { p.sh with out := p.sh.out ++ [Output.perror "execvp".toList e] },
          calls := p.calls ++ [Call.fork none, Call.execvp t (t :: rest) (some e),
            Call.child_exit 127] ++ [Call.waitpid_ok 127] })) ∧
      (∀ e2, px.waitpid p.sh.os = some e2 →
        run_external px argv p = some (Ran.returned { p with
          sh := { p.sh with out := p.sh.out ++ [Output.perror "execvp".toList e] ++
            [Output.perror "waitpid".toList e2] },
          calls := p.calls ++ [Call.fork none, Call.execvp t (t :: rest) (some e),
            Call.child_exit 127] ++ [Call.waitpid_failed e2] }))) ∧
    (∀ ending e2, px.fork p.sh.os = none →
      px.execvp p.sh.os t (t :: rest) = Except.ok ending → px.waitpid p.sh.os = some e2 →
      run_external px argv p = some (Ran.returned { p with
        sh := { p.sh with out := p.sh.out ++ [Output.perror "waitpid".toList e2] },
        stdin := input_left p.stdin (px.reads p.sh.os t (t :: rest) p.stdin),
        calls := p.calls ++ [Call.fork none, Call.execvp t (t :: rest) none] ++
          [Call.waitpid_failed e2] })) ∧
    (((∃ e, px.fork p.sh.os = some e) ∨ (∃ e, px.execvp p.sh.os t (t :: rest) = Except.error e) ∨
        (∃ e2, px.waitpid p.sh.os = some e2)) →
      (∃ q, run_external px argv p = some (Ran.returned q)) ∧
      ∀ (sys : Sys σ), p.argv = argv → handle_builtin sys argc argv p.sh = some (0, p.sh) →
        ∃ q, main_dispatch sys px argc p = some (Step.next q)) := by
  have heq := run_external_eq px t rest argc argv p hv hlen
  refine ⟨?_, ?_, ?_, ?_⟩
  · intro e hfk
    rw [heq, hfk]
  · intro e hfk hex
    constructor
    · intro hw
      rw [heq, hfk]
      simp only [hex, hw]
    · intro e2 hw
      rw [heq, hfk]
      simp only [hex, hw]
  · intro ending e2 hfk hex hw
    rw [heq, hfk]
    simp only [hex, hw]
  · intro hcase
    have hret : ∃ q, run_external px argv p = some (Ran.returned q) := by
      rw [heq]
      cases hfk : px.fork p.sh.os with
      | some e => exact ⟨_, rfl⟩
      | none =>
        simp only
        cases hex : px.execvp p.sh.os t (t :: rest) with
        | error e =>
          simp only
          cases px.waitpid p.sh.os <;> exact ⟨_, rfl⟩
        | ok ending =>
          simp only
          cases hw : px.waitpid p.sh.os with
          | some e2 => exact ⟨_, rfl⟩
          | none =>
            rcases hcase with ⟨e, he⟩ | ⟨e, he⟩ | ⟨e2, he⟩
            · rw [hfk] at he; cases he
            · rw [hex] at he; cases he
            · rw [hw] at he; cases he
    refine ⟨hret, ?_⟩
    intro sys hargv hb
    obtain ⟨q, hq⟩ := hret
    subst hargv
    have hsame : ({ p with sh := p.sh } : Proc σ) = p := rfl
    have hd := main_dispatch_delegate sys px argc p p.sh (Ran.returned q)
      (isArgv_head t rest argc p.argv hv).2.1 hb (by rw [hsame]; exact hq)
    exact ⟨q, hd⟩

/-- C14, witness: the line `lsxyz123` is delegated, the child cannot execute
the program, reports it and terminates with status 127, which `waitpid`
yields; the iteration ends with the next iteration to follow, and the run
goes on with the second prompt. -/
theorem run_external_failures_witness :
    run_external procs_home_u (argv_after (fun _ => none) ["lsxyz123".toList])
        (Proc.mk (Shell.mk history_init "/tmp".toList []) [] 1
          (argv_after (fun _ => none) ["lsxyz123".toList]) []) =
      some (Ran.returned (Proc.mk
        (Shell.mk history_init "/tmp".toList [Output.perror "execvp".toList 2]) [] 1
        (argv_after (fun _ => none) ["lsxyz123".toList])
        [Call.fork none, Call.execvp "lsxyz123".toList ["lsxyz123".toList] (some 2),
          Call.child_exit 127, Call.waitpid_ok 127])) ∧
    (main_iteration sys_home_u procs_home_u
        (main_init "/tmp".toList "lsxyz123\n".toList (fun _ => none))).map
      (fun st => match st with
        | Step.next q => some (q.sh.out, q.calls)
        | _ => none) =
      some (some ([Output.printf_prompt 1 "/tmp".toList, Output.perror "execvp".toList 2],
        [Call.fork none, Call.execvp "lsxyz123".toList ["lsxyz123".toList] (some 2),
          Call.child_exit 127, Call.waitpid_ok 127])) ∧
    (match main sys_home_u procs_home_u "/tmp".toList "lsxyz123\n".toList (fun _ => none) with
      | Outcome.returned code q => some (code, q.sh.out)
      | _ => none) =
      some (0, [Output.printf_prompt 1 "/tmp".toList, Output.perror "execvp".toList 2,
        Output.printf_prompt 2 "/tmp".toList, Output.puts "\nexit".toList]) :=
  ⟨((run_external_failures procs_home_u "lsxyz123".toList [] 1
      (argv_after (fun _ => none) ["lsxyz123".toList])
      (Proc.mk (Shell.mk history_init "/tmp".toList []) [] 1
        (argv_after (fun _ => none) ["lsxyz123".toList]) [])
      (isArgv_argv_after _ _) (by decide)).2.1 2 rfl rfl).1 rfl,
   by decide, by decide⟩

/-- C16: for every string `s`, `trim_newline` removes exactly the final
character when `s` ends with a newline and leaves `s` unchanged otherwise (the
empty string included).  Hence for a line `l` without newline, read with or
without its terminator, trimming and tokenizing gives the tokens of `l`, none
of which contains a newline; and an iteration that reads a line consisting of
the terminator alone records nothing, finds zero tokens, is handled (outcome 1)
and goes on to the next iteration. -/
theorem trim_newline_tokens {σ : Type} (sys : Sys σ) (px : Procs σ) (s : CString) :
    (∀ t, s = t ++ ['\n'] → trim_newline s = t) ∧
    (s.getLast? ≠ some '\n' → trim_newline s = s) ∧
    trim_newline [] = [] ∧
    (∀ (l : CString) (argv : Argv), '\n' ∉ l → (s = l ++ ['\n'] ∨ s = l) →
      parse_args (trim_newline s) argv MAX_ARGS = parse_args l argv MAX_ARGS ∧
      ∀ t ∈ (fields (trim_newline s)).take (MAX_ARGS - 1).toNat, '\n' ∉ t) ∧
    (∀ (p : Proc σ) (rest : List Char), p.cmd_count < INT_MAX → p.stdin = '\n' :: rest →
      fgets MAX_LINE p.stdin = some (['\n'], rest) ∧
      trim_newline ['\n'] = [] ∧
      history_add p.sh.hist (some (trim_newline ['\n'])) = some p.sh.hist ∧
      parse_args (trim_newline ['\n']) p.argv MAX_ARGS = some (0, argv_after p.argv []) ∧
      handle_builtin sys 0 (argv_after p.argv []) p.sh = some (1, p.sh) ∧
      main_iteration sys px p = some (Step.next (dispatch_state px p p.sh.hist [] rest))) := by
  have htrim1 : trim_newline ['\n'] = [] := by decide
  refine ⟨?_, trim_newline_other s, rfl, ?_, ?_⟩
  · intro t ht
    rw [ht, trim_newline_append]
  · intro l argv hl hs
    have htl : trim_newline s = l := by
      rcases hs with h | h
      · rw [h, trim_newline_append]
      · rw [h]
        apply trim_newline_other
        intro hlast
        exact hl (List.mem_of_mem_getLast? hlast)
    rw [htl]
    refine ⟨rfl, ?_⟩
    intro t ht hc
    exact hl (fields_subset l t (List.mem_of_mem_take ht) '\n' hc)
  · intro p rest hcc hin
    refine ⟨by rw [hin, fgets_newline], htrim1, by rw [htrim1]; rfl, ?_, ?_,
      main_iteration_newline sys px p rest hcc hin⟩
    · rw [htrim1, parse_args_spec, fields_nil]
      rfl
    · exact handle_builtin_nil sys 0 _ p.sh (isArgv_argv_after p.argv [])

/-- C16, witness: the input line `ls -l` with its terminator yields the tokens
`ls` and `-l`; an empty input line leaves the history empty. -/
theorem trim_newline_tokens_witness :
    trim_newline "ls -l\n".toList = "ls -l".toList ∧
    parse_args (trim_newline "ls -l\n".toList) (fun _ => none) MAX_ARGS =
      parse_args "ls -l".toList (fun _ => none) MAX_ARGS ∧
    (main_iteration sys_home_u procs_home_u
        (main_init "/tmp".toList "\nexit\n".toList (fun _ => none))).map
      (fun st => st.proc.sh.hist) = some history_init := by
  have h := trim_newline_tokens sys_home_u procs_home_u "ls -l\n".toList
  have h5 := (h.2.2.2.2 (main_init "/tmp".toList "\nexit\n".toList (fun _ => none))
    "exit\n".toList (by decide) rfl).2.2.2.2.2
  refine ⟨h.1 "ls -l".toList rfl,
    (h.2.2.2.1 "ls -l".toList (fun _ => none) (by decide) (Or.inl rfl)).1, ?_⟩
  rw [h5]
  rfl

/-- C18: in every run of the loop, an iteration whose line has the first token
`history` (the only way the `history` builtin is executed) is defined as long
as `cmd_count` is below `INT_MAX`, and it goes on to the next iteration with a
non-empty history (`history_count ≥ 1`): the line was recorded before the
dispatch, `history_print` renders the recorded texts, the last rendered entry
carries the number `history_count` and the very line that invoked the builtin,
and the "No history." notice is not among the output of `history_print`. -/
theorem history_builtin_shows_own_line {σ : Type} (sys : Sys σ) (px : Procs σ) (os : σ)
    (stdin : List Char) (argv : Argv) (p : Proc σ) (raw : CString) (rest : List Char)
    (more : List CString)
    (hreach : Reachable sys px os stdin argv p)
    (hf : fgets MAX_LINE p.stdin = some (raw, rest))
    (hhist : fields (trim_newline raw) = "history".toList :: more) :
    (p.cmd_count < INT_MAX → ∃ st, main_iteration sys px p = some st) ∧
    ∀ st, main_iteration sys px p = some st →
      ∃ rec q, st = Step.next q ∧ HistoryInv p.sh.hist rec ∧
        HistoryInv q.sh.hist (rec ++ [trim_newline raw]) ∧
        q.sh.hist.history_count = (rec.length : Int) + 1 ∧
        1 ≤ q.sh.hist.history_count ∧
        history_print q.sh.hist = some (rendered (rec ++ [trim_newline raw])) ∧
        q.sh.out = (print_prompt px (p.cmd_count + 1) p.sh).out ++
          rendered (rec ++ [trim_newline raw]) ∧
        (rendered (rec ++ [trim_newline raw])).getLast? =
          some (Output.printf_d_s q.sh.hist.history_count (trim_newline raw)) ∧
        Output.puts "No history.".toList ∉ rendered (rec ++ [trim_newline raw]) := by
  obtain ⟨rec, hinv, hle⟩ := reachable_inv sys px os stdin argv p hreach
  have key : p.cmd_count < INT_MAX → ∃ q, main_iteration sys px p = some (Step.next q) ∧
      HistoryInv q.sh.hist (rec ++ [trim_newline raw]) ∧
      q.sh.hist.history_count = (rec.length : Int) + 1 ∧
      1 ≤ q.sh.hist.history_count ∧
      history_print q.sh.hist = some (rendered (rec ++ [trim_newline raw])) ∧
      q.sh.out = (print_prompt px (p.cmd_count + 1) p.sh).out ++
        rendered (rec ++ [trim_newline raw]) ∧
      (rendered (rec ++ [trim_newline raw])).getLast? =
        some (Output.printf_d_s q.sh.hist.history_count (trim_newline raw)) := by
    intro hcc
    obtain ⟨hist1, _, hinv1, hrec1, hiter⟩ :=
      main_iteration_line sys px p rec raw rest hcc hinv (by omega) hf
    have hne : trim_newline raw ≠ [] := fields_ne_nil_line _ _ _ hhist
    rw [hrec1, if_neg hne] at hinv1
    have h63 : (MAX_ARGS - 1).toNat = 62 + 1 := by decide
    have hts : (fields (trim_newline raw)).take (MAX_ARGS - 1).toNat =
        "history".toList :: more.take 62 := by
      rw [hhist, h63, List.take_succ_cons]
    have hv : IsArgv ("history".toList :: more.take 62)
        ((((fields (trim_newline raw)).take (MAX_ARGS - 1).toNat).length : Nat) : Int)
        (dispatch_state px p hist1 (trim_newline raw) rest).argv := by
      show IsArgv _ _
        (argv_after p.argv ((fields (trim_newline raw)).take (MAX_ARGS - 1).toNat))
      rw [hts]
      exact isArgv_argv_after p.argv _
    have hlen0 : ¬ ((rec ++ [trim_newline raw]).length = 0) := by simp
    have hb := handle_builtin_history_eq sys (more.take 62) _ _
      (dispatch_state px p hist1 (trim_newline raw) rest).sh (rec ++ [trim_newline raw])
      hinv1 hv
    rw [if_neg hlen0] at hb
    have hd := (main_dispatch_builtin sys px _ _ 1 _ hb).2 rfl
    have hcount : hist1.history_count = (rec.length : Int) + 1 := by
      rw [hinv1.count]; simp
    have hprint := history_print_spec hist1 _ hinv1
    rw [if_neg hlen0] at hprint
    refine ⟨_, hiter.trans hd, hinv1, hcount, ?_, hprint, rfl, ?_⟩
    · show 1 ≤ hist1.history_count
      omega
    · show _ = some (Output.printf_d_s hist1.history_count (trim_newline raw))
      rw [hcount]
      exact rendered_getLast rec (trim_newline raw)
  constructor
  · intro hcc
    obtain ⟨q, hq, _⟩ := key hcc
    exact ⟨_, hq⟩
  · intro st hst
    obtain ⟨q, hq, h1, h2, h3, h4, h5, h6⟩ := key (main_iteration_cc sys px p st hst)
    have heq : Step.next q = st := Option.some.inj (hq.symm.trans hst)
    exact ⟨rec, q, heq.symm, hinv, h1, h2, h3, h4, h5, h6, puts_not_mem_rendered _ _⟩

/-- C18, witness: when the first input line is `history`, the iteration
prints the prompt and renders `1  history`. -/
theorem history_builtin_shows_own_line_witness :
    (main_iteration sys_home_u procs_home_u
        (main_init "/tmp".toList "history\n".toList (fun _ => none))).map
      (fun st => st.proc.sh.out) =
      some [Output.printf_prompt 1 "/tmp".toList, Output.printf_d_s 1 "history".toList] := by
  have h := history_builtin_shows_own_line sys_home_u procs_home_u "/tmp".toList
    "history\n".toList (fun _ => none)
    (main_init "/tmp".toList "history\n".toList (fun _ => none))
    "history\n".toList [] [] Reachable.init (by decide) (by decide)
  obtain ⟨st, hst⟩ := h.1 (by decide)
  obtain ⟨rec, q, hq, hinv, _, _, _, _, hout, _, _⟩ := h.2 st hst
  have hrec : rec = [] := by
    have hc := hinv.count
    have h0 : (rec.length : Int) = 0 := hc.symm
    exact List.length_eq_zero.mp (by exact_mod_cast h0)
  subst hrec
  subst hq
  rw [hst, Option.map_some']
  show some q.sh.out = _
  rw [hout]
  decide

end MyShell
